import Mathlib

/-!
Verification development for the virtual-filesystem shell emulator
(`vfs.py` and `prac1.py`).

The Python source is shallowly embedded below:
  * `VEntry` models the node classes `VEntry` / `VFile` / `VDirectory`
    (a tagged tree; the dict `children` becomes an insertion-ordered list
    with unique names, and `dict.__setitem__` becomes `addChild`, which
    replaces in place at an existing key and appends otherwise; the
    non-owning `parent` back-reference is not stored — a node reached by a
    non-empty segment walk from the root is exactly a node whose `parent`
    is set, which is how the traversals below recover every use the source
    makes of `parent`).
  * Path helpers mirror `posixpath.normpath`, `posixpath.join`,
    `posixpath.dirname`, `posixpath.basename` and `str.split` / `str.strip`
    / `str.lower` / `str.replace` at the character-list level
    (ASCII whitespace and case, which is what the manifests use).
  * `VirtualFileSystem` carries `root` and `cwd`; the loader and the
    operations `ls`, `cd`, `tree`, `read_file` are translated method by
    method.  Mutation of a node found by `_get_node` becomes a path-indexed
    functional update (`attachAt`).
-/

/-- Python `str.isspace` members relevant to `str.strip()` (ASCII range). -/
def isPySpace (c : Char) : Bool :=
  c = ' ' || c = '\t' || c = '\n' || c = '\r' || c = '\x0b' || c = '\x0c'

/-- Python `s.strip()`. -/
def pyStrip (s : String) : String :=
  String.mk (((s.data.dropWhile isPySpace).reverse.dropWhile isPySpace).reverse)

/-- Python `s.lower()` (ASCII case mapping). -/
def pyLower (s : String) : String :=
  String.mk (s.data.map Char.toLower)

/-- Python `s.replace("\\", "/")` — a single-character replacement is a map. -/
def replaceBk (s : String) : String :=
  String.mk (s.data.map (fun c => if c = '\\' then '/' else c))

/-- Python `s.startswith("/")`. -/
def startsWithSlash (s : String) : Bool :=
  s.data.head? = some '/'

/-- Python `s.startswith("//")`. -/
def startsWith2Slash (s : String) : Bool :=
  match s.data with
  | a :: b :: _ => a = '/' && b = '/'
  | _ => false

/-- Python `s.startswith("///")`. -/
def startsWith3Slash (s : String) : Bool :=
  match s.data with
  | a :: b :: c :: _ => a = '/' && b = '/' && c = '/'
  | _ => false

/-- Python `s.endswith("/")`. -/
def endsWithSlash (s : String) : Bool :=
  s.data.getLast? = some '/'

/-- Python `s.split("/")` on a character list (keeps empty fields). -/
def splitSlashAux (cur : List Char) : List Char → List String
  | [] => [String.mk cur.reverse]
  | c :: rest =>
    if c = '/' then String.mk cur.reverse :: splitSlashAux [] rest
    else splitSlashAux (c :: cur) rest

def splitSlash (cs : List Char) : List String := splitSlashAux [] cs

/-- Python `"sep".join(parts)`. -/
def joinStr (sep : String) : List String → String
  | [] => ""
  | [s] => s
  | s :: rest => s ++ sep ++ joinStr sep rest

/-- `initial_slashes` of `posixpath.normpath`: 2 iff the path starts with
exactly two slashes, 1 for any other leading slash, 0 otherwise. -/
def slashCountOf (q : String) : Nat :=
  if startsWithSlash q then
    if startsWith2Slash q && !startsWith3Slash q then 2 else 1
  else 0

/-- One step of the component loop of `posixpath.normpath`; `acc` is the
`new_comps` list in reverse (head = most recent). -/
def npStep (initSl : Bool) (acc : List String) (comp : String) : List String :=
  if comp = "" || comp = "." then acc
  else if comp ≠ ".." || (initSl = false ∧ acc = []) || acc.head? = some ".." then
    comp :: acc
  else
    match acc with
    | [] => []
    | _ :: t => t

/-- The `new_comps` list computed by `posixpath.normpath`. -/
def normCompsOf (q : String) : List String :=
  ((splitSlash q.data).foldl (npStep (decide (slashCountOf q > 0))) []).reverse

/-- `posixpath.normpath`. -/
def normpath (q : String) : String :=
  if q = "" then "."
  else
    let res := String.mk (List.replicate (slashCountOf q) '/') ++ joinStr "/" (normCompsOf q)
    if res = "" then "." else res

/-- `posixpath.join` restricted to two arguments, as the source uses it. -/
def pjoin (a b : String) : String :=
  if startsWithSlash b then b
  else if a = "" || endsWithSlash a then a ++ b
  else a ++ "/" ++ b

/-- Index just past the last `'/'` of the list (0 when there is none),
i.e. Python `p.rfind("/") + 1`. -/
def lastSlashPos : List Char → Nat
  | [] => 0
  | c :: rest =>
    let r := lastSlashPos rest
    if r > 0 then r + 1 else if c = '/' then 1 else 0

/-- Python `head.rstrip("/")`. -/
def dropTrailSlashes (cs : List Char) : List Char :=
  (cs.reverse.dropWhile (fun c => c = '/')).reverse

/-- `posixpath.dirname`. -/
def pdirname (p : String) : String :=
  let cs := p.data
  let head := cs.take (lastSlashPos cs)
  if head ≠ [] ∧ head.any (fun c => c ≠ '/') then String.mk (dropTrailSlashes head)
  else String.mk head

/-- `posixpath.basename`. -/
def pbasename (p : String) : String :=
  String.mk (p.data.drop (lastSlashPos p.data))

/-- The node classes of `vfs.py`: `VFile(name, content)` and
`VDirectory(name, children)`.  `children` is the insertion-ordered dict
keyed by each child's `name`. -/
inductive VEntry where
  | file (name : String) (content : String)
  | dir (name : String) (children : List VEntry)
deriving Repr

/-- The `name` attribute common to both node classes. -/
def VEntry.name : VEntry → String
  | .file n _ => n
  | .dir n _ => n

/-- `VDirectory.get_child`: dict lookup by name. -/
def getChild (ch : List VEntry) (s : String) : Option VEntry :=
  match ch with
  | [] => none
  | c :: rest => if c.name = s then some c else getChild rest s

/-- `VDirectory.add_child`: `children[entry.name] = entry` — replace the
entry at an existing key in place, otherwise append. -/
def addChild (ch : List VEntry) (e : VEntry) : List VEntry :=
  match ch with
  | [] => [e]
  | c :: rest => if c.name = e.name then e :: rest else c :: addChild rest e

/-- The segment walk of `VirtualFileSystem._get_node`: starting from a node,
descend through directory children; a missing child or a file in the middle
yields `none`. -/
def descend (e : VEntry) (segs : List String) : Option VEntry :=
  match segs with
  | [] => some e
  | s :: rest =>
    match e with
    | .file _ _ => none
    | .dir _ ch =>
      match getChild ch s with
      | none => none
      | some c => descend c rest

/-- The segment loop of `VirtualFileSystem._ensure_dir`: walk the segments,
creating missing directories, and raise on a file in the chain.  The
returned value is the updated tree rooted at `e` (the Python method mutates
in place and its return value is never used by its callers).  The source
formats the conflicting child's full path into the message via `path()`;
here the message carries the conflicting segment. -/
def ensureSegs (e : VEntry) (segs : List String) : Except String VEntry :=
  match segs with
  | [] => .ok e
  | s :: rest =>
    match e with
    | .file _ _ => .error "internal: walk entered a file"
    | .dir n ch =>
      match getChild ch s with
      | none =>
        match ensureSegs (.dir s []) rest with
        | .ok sub => .ok (.dir n (addChild ch sub))
        | .error m => .error m
      | some (.dir n2 ch2) =>
        match ensureSegs (.dir n2 ch2) rest with
        | .ok sub => .ok (.dir n (addChild ch sub))
        | .error m => .error m
      | some (.file _ _) =>
        .error ("Path conflict: " ++ s ++ " exists as file when directory expected")

/-- Functional form of "`_get_node(parent)` then `parent.add_child(child)`":
walk `segs` from `e` and add `child` to the directory found there; every
failure to find a directory at `segs` produces `msg` (for the `file` branch
of the loader this is the `Parent ... is not a directory` exception; for the
fallback branch it stands for the `AttributeError` Python would raise). -/
def attachAt (e : VEntry) (segs : List String) (child : VEntry) (msg : String) :
    Except String VEntry :=
  match segs with
  | [] =>
    match e with
    | .dir n ch => .ok (.dir n (addChild ch child))
    | .file _ _ => .error msg
  | s :: rest =>
    match e with
    | .file _ _ => .error msg
    | .dir n ch =>
      match getChild ch s with
      | none => .error msg
      | some c =>
        match attachAt c rest child msg with
        | .ok c2 => .ok (.dir n (addChild ch c2))
        | .error m => .error m

/-- The engine state: `root` and `cwd` (the manifest bookkeeping fields
`source_path`, `source_bytes`, `sha256` play no role in the claims). -/
structure VirtualFileSystem where
  root : VEntry
  cwd : String
deriving Repr

/-- `VirtualFileSystem._normalize_posix` (the unused `allow_relative`
parameter is dropped). -/
def VirtualFileSystem.normalizePosix (v : VirtualFileSystem) (p : String) : String :=
  if p = "" then v.cwd
  else
    let p1 := replaceBk p
    let norm := if startsWithSlash p1 then normpath p1 else normpath (pjoin v.cwd p1)
    if norm = "." then "/"
    else if startsWithSlash norm then norm
    else "/" ++ norm

/-- The nonempty segments of an absolute path:
`[p for p in abs_path.split("/") if p]`. -/
def partsOf (a : String) : List String :=
  (splitSlash a.data).filter (fun s => s ≠ "")

/-- `VirtualFileSystem._get_node`. -/
def VirtualFileSystem.getNode (v : VirtualFileSystem) (p : String) : Option VEntry :=
  let a := v.normalizePosix p
  if a = "/" then some v.root else descend v.root (partsOf a)

/-- `VirtualFileSystem._ensure_dir`, returning the updated engine state. -/
def VirtualFileSystem.ensureDir (v : VirtualFileSystem) (p : String) :
    Except String VirtualFileSystem :=
  let a := v.normalizePosix p
  if a = "/" then .ok v
  else
    match ensureSegs v.root (partsOf a) with
    | .ok r => .ok { v with root := r }
    | .error m => .error m

/-- The shared tail of the `file` and fallback branches of `_load_csv`:
ensure the parent chain, then `_get_node(parent)` + `add_child` (the walk of
`attachAt`); `msg` is the error the branch raises when the parent is not a
directory. -/
def ensureAttach (v : VirtualFileSystem) (path content msg : String) :
    Except String VirtualFileSystem :=
  let parentDir := pdirname path
  match v.ensureDir parentDir with
  | .error m => .error m
  | .ok v1 =>
    match attachAt v1.root (partsOf (v1.normalizePosix parentDir))
        (.file (pbasename path) content) msg with
    | .ok r => .ok { v1 with root := r }
    | .error m => .error m

/-- One iteration of the row loop of `VirtualFileSystem._load_csv`
(headerless manifests: `path = row[0]`, `type = row[1]`, `content = row[2]`,
each stripped, the type lowered). -/
def loadRow (v : VirtualFileSystem) (row : List String) : Except String VirtualFileSystem :=
  if row.all (fun cell => pyStrip cell = "") then .ok v
  else
    let path0 := pyStrip ((row.get? 0).getD "")
    let typ := pyLower (pyStrip ((row.get? 1).getD ""))
    let content := pyStrip ((row.get? 2).getD "")
    if path0 = "" then .ok v
    else
      let p1 := replaceBk path0
      let path := if startsWithSlash p1 then p1 else "/" ++ p1
      if typ = "dir" then v.ensureDir path
      else if typ = "file" then
        ensureAttach v path content
          ("Parent " ++ pdirname path ++ " is not a directory for file " ++ path)
      else
        -- unrecognized type token: same as the `file` branch but without the
        -- isinstance check (a non-directory parent would be an AttributeError)
        ensureAttach v path content
          ("AttributeError: add_child on non-directory for " ++ path)

/-- The data-row loop of `_load_csv`: a raised exception aborts the load. -/
def loadRows (v : VirtualFileSystem) (rows : List (List String)) :
    Except String VirtualFileSystem :=
  match rows with
  | [] => .ok v
  | r :: rest =>
    match loadRow v r with
    | .error m => .error m
    | .ok v2 => loadRows v2 rest

/-- `VirtualFileSystem.__init__` on the data rows of a manifest: root is a
fresh empty directory named `""`, `cwd` is `"/"`, then the tree is built; a
load error means no engine instance is produced. -/
def loadVFS (rows : List (List String)) : Except String VirtualFileSystem :=
  loadRows { root := .dir "" [], cwd := "/" } rows

/-- Python `sorted` on a list of strings (code-point lexicographic order). -/
def sortedStrings (l : List String) : List String :=
  l.mergeSort (fun a b => a ≤ b)

/-- `target = self.cwd if path is None else path`. -/
def targetOf (v : VirtualFileSystem) (p : Option String) : String :=
  match p with
  | none => v.cwd
  | some s => s

/-- `ls(path?)`: default target `cwd`; directory: sorted child names;
file: its own name; unresolved: error. -/
def VirtualFileSystem.ls (v : VirtualFileSystem) (p : Option String) :
    Except String (List String) :=
  let target := targetOf v p
  match v.getNode target with
  | none => .error ("No such file or directory: " ++ target)
  | some (.dir _ ch) => .ok (sortedStrings (ch.map VEntry.name))
  | some (.file n _) => .ok [n]

/-- `cd(path)`: the pair is (result, state after the call) — the source
mutates `self.cwd` only on success. -/
def VirtualFileSystem.cd (v : VirtualFileSystem) (p : String) :
    Except String Unit × VirtualFileSystem :=
  if p = "" then (.ok (), { v with cwd := "/" })
  else
    let a := v.normalizePosix p
    match v.getNode a with
    | none => (.error ("No such directory: " ++ p), v)
    | some (.file _ _) => (.error ("Not a directory: " ++ p), v)
    | some (.dir _ _) => (.ok (), { v with cwd := a })

/-- Base64 value of an alphabet character. -/
def b64Val (c : Char) : Option Nat :=
  if 'A' ≤ c ∧ c ≤ 'Z' then some (c.toNat - 65)
  else if 'a' ≤ c ∧ c ≤ 'z' then some (c.toNat - 97 + 26)
  else if '0' ≤ c ∧ c ≤ '9' then some (c.toNat - 48 + 52)
  else if c = '+' then some 62
  else if c = '/' then some 63
  else none

/-- Decode 4-character groups; `'='` is only valid as final padding. -/
def b64Groups : List Char → Except String (List Nat)
  | [] => .ok []
  | a :: b :: c :: d :: rest =>
    match b64Val a, b64Val b with
    | some va, some vb =>
      if c = '=' ∧ d = '=' ∧ rest = [] then .ok [va * 4 + vb / 16]
      else
        match b64Val c with
        | some vc =>
          if d = '=' ∧ rest = [] then .ok [va * 4 + vb / 16, vb % 16 * 16 + vc / 4]
          else
            match b64Val d with
            | some vd =>
              match b64Groups rest with
              | .ok t => .ok ((va * 4 + vb / 16) :: (vb % 16 * 16 + vc / 4) :: (vc % 4 * 64 + vd) :: t)
              | .error m => .error m
            | none => .error "Invalid base64-encoded string"
        | none => .error "Invalid base64-encoded string"
    | _, _ => .error "Invalid base64-encoded string"
  | _ => .error "Incorrect padding"

/-- Models Python `base64.b64decode` (validate=False): characters outside
the alphabet are discarded, then the remainder must decode in groups of
four; failures are the `binascii.Error` surfaced by `read_file`. -/
def b64decode (s : String) : Except String (List Nat) :=
  b64Groups (s.data.filter (fun c => (b64Val c).isSome || c = '='))

/-- `VFile.read` / UTF-8 bytes of the stored content. -/
def utf8Bytes (s : String) : List Nat :=
  s.toUTF8.toList.map (fun b => b.toNat)

/-- `read_file(path, decode_base64?)`. -/
def VirtualFileSystem.readFile (v : VirtualFileSystem) (p : String) (dec : Bool) :
    Except String (List Nat) :=
  let a := v.normalizePosix p
  match v.getNode a with
  | none => .error ("No such file: " ++ p)
  | some (.dir _ _) => .error ("Path is not a file: " ++ p)
  | some (.file _ content) => if dec then b64decode content else .ok (utf8Bytes content)

/-- Name-based comparison used by `sorted(children.keys())`. -/
def entryLe (a b : VEntry) : Bool := a.name ≤ b.name

mutual
/-- Sorting every directory's children up front; visiting the sorted copy in
list order is exactly `for child_name in sorted(n.children.keys())` at each
recursion step of `tree`. -/
def sortTree : VEntry → VEntry
  | .file n c => .file n c
  | .dir n ch => .dir n ((sortForest ch).mergeSort entryLe)
def sortForest : List VEntry → List VEntry
  | [] => []
  | e :: es => sortTree e :: sortForest es
end

mutual
/-- `_recurse` of `tree`: pre-order lines; the label is `"/"` exactly for
the node with no parent (the root); two spaces of indent per level; with a
`max_depth`, a directory at `depth ≥ max_depth` prints its own line and
prunes its children. -/
def linesOf (e : VEntry) (isRoot : Bool) (pre : String) (depth : Nat)
    (md : Option Nat) : List String :=
  match e with
  | .file n _ => [pre ++ (if isRoot then "/" else n)]
  | .dir n ch =>
    let line := pre ++ (if isRoot then "/" else n)
    match md with
    | some m =>
      if depth ≥ m then [line]
      else line :: linesForest ch (pre ++ "  ") (depth + 1) (some m)
    | none => line :: linesForest ch (pre ++ "  ") (depth + 1) none
def linesForest (l : List VEntry) (pre : String) (depth : Nat)
    (md : Option Nat) : List String :=
  match l with
  | [] => []
  | e :: es => linesOf e false pre depth md ++ linesForest es pre depth md
end

/-- `tree(path?, max_depth?)`: the start node is the root object exactly
when the normalized start path has no segments. -/
def VirtualFileSystem.tree (v : VirtualFileSystem) (p : Option String)
    (md : Option Nat) : Except String String :=
  let sp := targetOf v p
  match v.getNode sp with
  | none => .error ("No such path: " ++ sp)
  | some node =>
    .ok (joinStr "\n" (linesOf (sortTree node) (partsOf (v.normalizePosix sp)).isEmpty "" 0 md))

/-- The branch a verb is dispatched to by `ShellEmulator.run_command`. -/
inductive Handler where
  | cmdExit
  | cmdLs
  | cmdCd
  | cmdVfsInfo
  | cmdTree
  | cmdUname
  | cmdWhoami
  | unknown
deriving DecidableEq, Repr

/-- The verb dispatch of `ShellEmulator.run_command`. -/
def runCommandHandler (cmd : String) : Handler :=
  if cmd = "exit" then .cmdExit
  else if cmd = "ls" then .cmdLs
  else if cmd = "cd" then .cmdCd
  else if cmd = "vfs-info" then .cmdVfsInfo
  else if cmd = "tree" then .cmdTree
  else if cmd = "uname" then .cmdUname
  else if cmd = "whoami" then .cmdWhoami
  else .unknown


/-! ### Unfolding lemmas for the tree walks -/

theorem descend_nil (e : VEntry) : descend e [] = some e := rfl

theorem descend_cons_file (n ct s : String) (rest : List String) :
    descend (.file n ct) (s :: rest) = none := rfl

theorem descend_cons_none (n s : String) (ch : List VEntry) (rest : List String)
    (hg : getChild ch s = none) : descend (.dir n ch) (s :: rest) = none := by
  simp [descend, hg]

theorem descend_cons_some (n s : String) (ch : List VEntry) (rest : List String)
    (c : VEntry) (hg : getChild ch s = some c) :
    descend (.dir n ch) (s :: rest) = descend c rest := by
  simp [descend, hg]

theorem ensureSegs_nil (e : VEntry) : ensureSegs e [] = .ok e := rfl

theorem ensureSegs_cons_file_hit (n s n2 c2 : String) (ch : List VEntry)
    (rest : List String) (hg : getChild ch s = some (.file n2 c2)) :
    ensureSegs (.dir n ch) (s :: rest) =
      .error ("Path conflict: " ++ s ++ " exists as file when directory expected") := by
  simp [ensureSegs, hg]

theorem ensureSegs_cons_none_ok (n s : String) (ch : List VEntry) (rest : List String)
    (sub : VEntry) (hg : getChild ch s = none)
    (he : ensureSegs (.dir s []) rest = .ok sub) :
    ensureSegs (.dir n ch) (s :: rest) = .ok (.dir n (addChild ch sub)) := by
  simp [ensureSegs, hg, he]

theorem ensureSegs_cons_none_err (n s m : String) (ch : List VEntry) (rest : List String)
    (hg : getChild ch s = none) (he : ensureSegs (.dir s []) rest = .error m) :
    ensureSegs (.dir n ch) (s :: rest) = .error m := by
  simp [ensureSegs, hg, he]

theorem ensureSegs_cons_dir_ok (n s n2 : String) (ch ch2 : List VEntry)
    (rest : List String) (sub : VEntry) (hg : getChild ch s = some (.dir n2 ch2))
    (he : ensureSegs (.dir n2 ch2) rest = .ok sub) :
    ensureSegs (.dir n ch) (s :: rest) = .ok (.dir n (addChild ch sub)) := by
  simp [ensureSegs, hg, he]

theorem ensureSegs_cons_dir_err (n s n2 m : String) (ch ch2 : List VEntry)
    (rest : List String) (hg : getChild ch s = some (.dir n2 ch2))
    (he : ensureSegs (.dir n2 ch2) rest = .error m) :
    ensureSegs (.dir n ch) (s :: rest) = .error m := by
  simp [ensureSegs, hg, he]

theorem attachAt_nil_dir (n : String) (ch : List VEntry) (c : VEntry) (m : String) :
    attachAt (.dir n ch) [] c m = .ok (.dir n (addChild ch c)) := rfl

theorem attachAt_nil_file (n ct : String) (c : VEntry) (m : String) :
    attachAt (.file n ct) [] c m = .error m := rfl

theorem attachAt_cons_file (n ct s : String) (rest : List String) (c : VEntry)
    (m : String) : attachAt (.file n ct) (s :: rest) c m = .error m := rfl

theorem attachAt_cons_none (n s : String) (ch : List VEntry) (rest : List String)
    (c : VEntry) (m : String) (hg : getChild ch s = none) :
    attachAt (.dir n ch) (s :: rest) c m = .error m := by
  simp [attachAt, hg]

theorem attachAt_cons_some_ok (n s : String) (ch : List VEntry) (rest : List String)
    (c c0 c2 : VEntry) (m : String) (hg : getChild ch s = some c0)
    (ha : attachAt c0 rest c m = .ok c2) :
    attachAt (.dir n ch) (s :: rest) c m = .ok (.dir n (addChild ch c2)) := by
  simp [attachAt, hg, ha]

theorem attachAt_cons_some_err (n s m m2 : String) (ch : List VEntry)
    (rest : List String) (c c0 : VEntry) (hg : getChild ch s = some c0)
    (ha : attachAt c0 rest c m = .error m2) :
    attachAt (.dir n ch) (s :: rest) c m = .error m2 := by
  simp [attachAt, hg, ha]

/-! ### Dictionary lemmas -/

theorem getChild_addChild_self (ch : List VEntry) (e : VEntry) :
    getChild (addChild ch e) e.name = some e := by
  induction ch with
  | nil => simp [addChild, getChild]
  | cons c rest ih =>
    by_cases h : c.name = e.name
    · simp [addChild, h, getChild]
    · rw [addChild, if_neg h, getChild, if_neg h]
      exact ih

theorem getChild_addChild_other (ch : List VEntry) (e : VEntry) (k : String)
    (hk : k ≠ e.name) : getChild (addChild ch e) k = getChild ch k := by
  induction ch with
  | nil =>
    have h1 : ¬ e.name = k := fun h => hk h.symm
    simp [addChild, getChild, h1]
  | cons c rest ih =>
    by_cases h : c.name = e.name
    · rw [addChild, if_pos h, getChild, if_neg (fun h2 => hk h2.symm), getChild,
        if_neg (fun h2 => hk (h ▸ h2).symm)]
    · rw [addChild, if_neg h, getChild, getChild]
      by_cases h2 : c.name = k
      · rw [if_pos h2, if_pos h2]
      · rw [if_neg h2, if_neg h2]
        exact ih

theorem getChild_name (ch : List VEntry) (s : String) (c : VEntry)
    (h : getChild ch s = some c) : c.name = s := by
  induction ch with
  | nil => simp [getChild] at h
  | cons c0 rest ih =>
    by_cases h0 : c0.name = s
    · rw [getChild, if_pos h0] at h
      cases h
      exact h0
    · rw [getChild, if_neg h0] at h
      exact ih h

/-! ### Structural lemmas about `_ensure_dir` and attaching -/

theorem ensureSegs_ok_shape (segs : List String) (n : String) (ch : List VEntry)
    (t : VEntry) (h : ensureSegs (.dir n ch) segs = .ok t) :
    ∃ ch2, t = .dir n ch2 := by
  cases segs with
  | nil =>
    rw [ensureSegs_nil] at h
    cases h
    exact ⟨ch, rfl⟩
  | cons s rest =>
    cases hg : getChild ch s with
    | none =>
      cases he : ensureSegs (.dir s []) rest with
      | error m => rw [ensureSegs_cons_none_err n s m ch rest hg he] at h; cases h
      | ok sub =>
        rw [ensureSegs_cons_none_ok n s ch rest sub hg he] at h
        cases h
        exact ⟨addChild ch sub, rfl⟩
    | some c0 =>
      cases c0 with
      | file n2 c2 =>
        rw [ensureSegs_cons_file_hit n s n2 c2 ch rest hg] at h
        cases h
      | dir n2 ch2 =>
        cases he : ensureSegs (.dir n2 ch2) rest with
        | error m => rw [ensureSegs_cons_dir_err n s n2 m ch ch2 rest hg he] at h; cases h
        | ok sub =>
          rw [ensureSegs_cons_dir_ok n s n2 ch ch2 rest sub hg he] at h
          cases h
          exact ⟨addChild ch sub, rfl⟩

/-- A file sitting at the end of a nonempty segment chain that `_get_node`
can walk makes `_ensure_dir` raise, whatever continuation follows. -/
theorem descend_file_ensureSegs_error (segs : List String) (e : VEntry)
    (nm ct : String) (h : descend e segs = some (.file nm ct)) (hne : segs ≠ []) :
    ∀ rest, ∃ m2, ensureSegs e (segs ++ rest) = .error m2 := by
  induction segs generalizing e with
  | nil => exact absurd rfl hne
  | cons s tl ih =>
    intro rest
    cases e with
    | file n2 c2 => rw [descend_cons_file] at h; cases h
    | dir n2 ch2 =>
      cases hg : getChild ch2 s with
      | none => rw [descend_cons_none n2 s ch2 tl hg] at h; cases h
      | some c0 =>
        rw [descend_cons_some n2 s ch2 tl c0 hg] at h
        cases tl with
        | nil =>
          rw [descend_nil] at h
          cases h
          exact ⟨_, by rw [List.cons_append, List.nil_append,
            ensureSegs_cons_file_hit n2 s nm ct ch2 rest hg]⟩
        | cons s2 tl2 =>
          obtain ⟨m2, hm2⟩ := ih c0 h (by simp) rest
          cases c0 with
          | file n3 c3 => rw [descend_cons_file] at h; cases h
          | dir n3 ch3 =>
            exact ⟨m2, by rw [List.cons_append,
              ensureSegs_cons_dir_err n2 s n3 m2 ch2 ch3 (s2 :: tl2 ++ rest) hg hm2]⟩

/-- After a successful `_ensure_dir` walk, attaching at the same segments
succeeds, and the result does not depend on the failure message. -/
theorem ensureSegs_attachAt_ok (segs : List String) (n : String) (ch : List VEntry)
    (t1 : VEntry) (h : ensureSegs (.dir n ch) segs = .ok t1) (c : VEntry) :
    ∃ r, ∀ m, attachAt t1 segs c m = .ok r := by
  induction segs generalizing n ch t1 with
  | nil =>
    rw [ensureSegs_nil] at h
    cases h
    exact ⟨.dir n (addChild ch c), fun m => attachAt_nil_dir n ch c m⟩
  | cons s tl ih =>
    cases hg : getChild ch s with
    | none =>
      cases he : ensureSegs (.dir s []) tl with
      | error m => rw [ensureSegs_cons_none_err n s m ch tl hg he] at h; cases h
      | ok sub =>
        rw [ensureSegs_cons_none_ok n s ch tl sub hg he] at h
        cases h
        obtain ⟨ch0, hch0⟩ := ensureSegs_ok_shape tl s [] sub he
        obtain ⟨r, hr⟩ := ih s [] sub he
        refine ⟨.dir n (addChild (addChild ch sub) r), fun m => ?_⟩
        have hget : getChild (addChild ch sub) s = some sub := by
          have : sub.name = s := by rw [hch0]; rfl
          have h2 := getChild_addChild_self ch sub
          rw [this] at h2
          exact h2
        exact attachAt_cons_some_ok n s (addChild ch sub) tl c sub r m hget (hr m)
    | some c0 =>
      cases c0 with
      | file n2 c2 =>
        rw [ensureSegs_cons_file_hit n s n2 c2 ch tl hg] at h
        cases h
      | dir n2 ch2 =>
        cases he : ensureSegs (.dir n2 ch2) tl with
        | error m => rw [ensureSegs_cons_dir_err n s n2 m ch ch2 tl hg he] at h; cases h
        | ok sub =>
          rw [ensureSegs_cons_dir_ok n s n2 ch ch2 tl sub hg he] at h
          cases h
          obtain ⟨ch0, hch0⟩ := ensureSegs_ok_shape tl n2 ch2 sub he
          obtain ⟨r, hr⟩ := ih n2 ch2 sub he
          refine ⟨.dir n (addChild (addChild ch sub) r), fun m => ?_⟩
          have hname : n2 = s := by
            have := getChild_name ch s (.dir n2 ch2) hg
            exact this
          have hget : getChild (addChild ch sub) s = some sub := by
            have : sub.name = s := by rw [hch0, ← hname]; rfl
            have h2 := getChild_addChild_self ch sub
            rw [this] at h2
            exact h2
          exact attachAt_cons_some_ok n s (addChild ch sub) tl c sub r m hget (hr m)

/-- Attaching under a path that resolves to a directory succeeds (whether or
not the name is already taken there). -/
theorem descend_dir_attachAt_ok (segs : List String) (e : VEntry) (n2 : String)
    (ch2 : List VEntry) (h : descend e segs = some (.dir n2 ch2)) (c : VEntry)
    (m : String) : ∃ r, attachAt e segs c m = .ok r := by
  induction segs generalizing e with
  | nil =>
    rw [descend_nil] at h
    cases h
    exact ⟨.dir n2 (addChild ch2 c), attachAt_nil_dir n2 ch2 c m⟩
  | cons s tl ih =>
    cases e with
    | file n3 c3 => rw [descend_cons_file] at h; cases h
    | dir n3 ch3 =>
      cases hg : getChild ch3 s with
      | none => rw [descend_cons_none n3 s ch3 tl hg] at h; cases h
      | some c0 =>
        rw [descend_cons_some n3 s ch3 tl c0 hg] at h
        obtain ⟨r, hr⟩ := ih c0 h
        exact ⟨.dir n3 (addChild ch3 r), attachAt_cons_some_ok n3 s ch3 tl c c0 r m hg hr⟩

/-! ### Clean manifest paths: `/seg1/.../segn` with plain segments -/

/-- A plain path segment: nonempty, not `.` or `..`, and free of slashes,
backslashes and surrounding whitespace. -/
def cleanSeg (s : String) : Bool :=
  s ≠ "" && s ≠ "." && s ≠ ".." &&
    s.data.all (fun c => c ≠ '/' && c ≠ '\\' && !isPySpace c)

def cleanSegs (l : List String) : Bool := l.all cleanSeg

/-- The absolute path spelled by a list of segments (`mkPath [] = "/"`). -/
def mkPath (segs : List String) : String := "/" ++ joinStr "/" segs

theorem String.mk_data (s : String) : String.mk s.data = s := by
  cases s
  rfl

theorem mkPath_data (segs : List String) :
    (mkPath segs).data = '/' :: (joinStr "/" segs).data := by
  rw [mkPath, String.data_append]
  rfl

theorem mkPath_ne_empty (segs : List String) : mkPath segs ≠ "" := by
  intro h
  have := congrArg String.data h
  rw [mkPath_data] at this
  cases this

theorem mkPath_ne_dot (segs : List String) : mkPath segs ≠ "." := by
  intro h
  have := congrArg String.data h
  rw [mkPath_data] at this
  cases this

theorem startsWithSlash_mkPath (segs : List String) :
    startsWithSlash (mkPath segs) = true := by
  rw [startsWithSlash, mkPath_data]
  rfl

theorem startsWithSlash_append (a b : String) (h : startsWithSlash a = true) :
    startsWithSlash (a ++ b) = true := by
  rw [startsWithSlash] at h ⊢
  rw [String.data_append]
  cases hd : a.data with
  | nil => rw [hd] at h; simp at h
  | cons c rest =>
    rw [hd] at h
    simp at h
    subst h
    rfl

theorem startsWithSlash_ne_empty (a : String) (h : startsWithSlash a = true) :
    a ≠ "" := by
  intro he
  subst he
  simp [startsWithSlash] at h

theorem data_ne_nil_of_ne_empty (s : String) (h : s ≠ "") : s.data ≠ [] := by
  intro hd
  apply h
  rw [← String.mk_data s, hd]

theorem cleanSeg_props (s : String) (h : cleanSeg s = true) :
    s ≠ "" ∧ s ≠ "." ∧ s ≠ ".." ∧
      ∀ c ∈ s.data, c ≠ '/' ∧ c ≠ '\\' ∧ isPySpace c = false := by
  rw [cleanSeg] at h
  simp only [Bool.and_eq_true, List.all_eq_true, decide_eq_true_eq,
    Bool.not_eq_true'] at h
  obtain ⟨⟨⟨h1, h2⟩, h3⟩, h4⟩ := h
  refine ⟨h1, h2, h3, fun c hc => ?_⟩
  obtain ⟨⟨hA, hB⟩, hC⟩ := h4 c hc
  exact ⟨hA, hB, hC⟩

theorem cleanSegs_cons (s : String) (l : List String)
    (h : cleanSegs (s :: l) = true) : cleanSeg s = true ∧ cleanSegs l = true := by
  rw [cleanSegs, List.all_cons, Bool.and_eq_true] at h
  exact ⟨h.1, h.2⟩

theorem splitSlashAux_no_slash (cs : List Char) (h : ∀ c ∈ cs, c ≠ '/') :
    ∀ cur, splitSlashAux cur cs = [String.mk (cur.reverse ++ cs)] := by
  induction cs with
  | nil => intro cur; simp [splitSlashAux]
  | cons c rest ih =>
    intro cur
    rw [splitSlashAux, if_neg (by exact h c (by simp))]
    rw [ih (fun c2 h2 => h c2 (by simp [h2])) (c :: cur)]
    simp

theorem splitSlashAux_append_slash (xs ys : List Char) (h : ∀ c ∈ xs, c ≠ '/') :
    ∀ cur, splitSlashAux cur (xs ++ '/' :: ys) =
      String.mk (cur.reverse ++ xs) :: splitSlashAux [] ys := by
  induction xs with
  | nil => intro cur; rw [List.nil_append, splitSlashAux, if_pos rfl]; simp
  | cons x xs ih =>
    intro cur
    rw [List.cons_append, splitSlashAux, if_neg (by exact h x (by simp))]
    rw [ih (fun c2 h2 => h c2 (by simp [h2])) (x :: cur)]
    simp

theorem joinStr_cons_cons (sep s s2 : String) (rest : List String) :
    joinStr sep (s :: s2 :: rest) = s ++ sep ++ joinStr sep (s2 :: rest) := rfl

/-- The character list of a slash-join of clean segments starts with the
first segment's characters. -/
theorem joinStr_data_head (s : String) (rest : List String) :
    ∃ t, (joinStr "/" (s :: rest)).data = s.data ++ t := by
  cases rest with
  | nil => exact ⟨[], by simp [joinStr]⟩
  | cons s2 r2 =>
    refine ⟨'/' :: (joinStr "/" (s2 :: r2)).data, ?_⟩
    rw [joinStr_cons_cons, String.data_append, String.data_append]
    simp

theorem splitSlash_joinStr_clean (segs : List String) (h : cleanSegs segs = true)
    (hne : segs ≠ []) : splitSlashAux [] (joinStr "/" segs).data = segs := by
  induction segs with
  | nil => exact absurd rfl hne
  | cons s rest ih =>
    obtain ⟨hs, hrest⟩ := cleanSegs_cons s rest h
    have hchars := (cleanSeg_props s hs).2.2.2
    cases rest with
    | nil =>
      rw [show joinStr "/" [s] = s from rfl]
      rw [splitSlashAux_no_slash s.data (fun c hc => (hchars c hc).1) []]
      simp [String.mk_data]
    | cons s2 r2 =>
      rw [joinStr_cons_cons, String.data_append, String.data_append,
        show ("/" : String).data = ['/'] from rfl, List.append_assoc,
        List.singleton_append]
      rw [splitSlashAux_append_slash s.data _ (fun c hc => (hchars c hc).1) []]
      rw [ih hrest (by simp)]
      simp [String.mk_data]

theorem partsOf_mkPath (segs : List String) (h : cleanSegs segs = true) :
    partsOf (mkPath segs) = segs := by
  cases segs with
  | nil => decide
  | cons s rest =>
    rw [partsOf, mkPath_data, splitSlash, splitSlashAux, if_pos rfl]
    rw [splitSlash_joinStr_clean (s :: rest) h (by simp)]
    rw [show String.mk ([] : List Char).reverse = "" from rfl]
    rw [List.filter_cons]
    simp only [decide_eq_true_eq]
    rw [if_neg (by simp)]
    rw [List.filter_eq_self.mpr]
    intro a ha
    have := (cleanSeg_props a ((List.all_eq_true.mp h) a ha)).1
    simp [this]

theorem slashCountOf_mkPath (segs : List String) (h : cleanSegs segs = true) :
    slashCountOf (mkPath segs) = 1 := by
  rw [slashCountOf, if_pos (startsWithSlash_mkPath segs)]
  cases segs with
  | nil =>
    rw [if_neg]
    intro h2
    rw [Bool.and_eq_true] at h2
    have := h2.1
    rw [startsWith2Slash] at this
    rw [show (mkPath []).data = ['/'] from rfl] at this
    cases this
  | cons s rest =>
    rw [if_neg]
    intro h2
    rw [Bool.and_eq_true] at h2
    have h3 := h2.1
    rw [startsWith2Slash, mkPath_data] at h3
    obtain ⟨t, ht⟩ := joinStr_data_head s rest
    obtain ⟨hs, _⟩ := cleanSegs_cons s rest h
    have hprops := cleanSeg_props s hs
    cases hd : s.data with
    | nil => exact absurd hd (data_ne_nil_of_ne_empty s hprops.1)
    | cons c cs =>
      rw [ht, hd] at h3
      simp at h3
      exact (hprops.2.2.2 c (by rw [hd]; simp)).1 h3

theorem foldl_npStep_clean (b : Bool) (l : List String) (h : cleanSegs l = true) :
    ∀ acc, l.foldl (npStep b) acc = l.reverse ++ acc := by
  induction l with
  | nil => intro acc; simp
  | cons s rest ih =>
    intro acc
    obtain ⟨hs, hrest⟩ := cleanSegs_cons s rest h
    have hprops := cleanSeg_props s hs
    rw [List.foldl_cons]
    rw [show npStep b acc s = s :: acc from ?_]
    · rw [ih hrest (s :: acc)]
      simp
    · rw [npStep.eq_def, if_neg (by simp [hprops.1, hprops.2.1]),
        if_pos (by simp [hprops.2.2.1])]

theorem normCompsOf_mkPath (segs : List String) (h : cleanSegs segs = true) :
    normCompsOf (mkPath segs) = segs := by
  rw [normCompsOf]
  cases segs with
  | nil =>
    rw [show splitSlash (mkPath []).data = ["", ""] from rfl]
    decide
  | cons s rest =>
    rw [mkPath_data, splitSlash, splitSlashAux, if_pos rfl,
      splitSlash_joinStr_clean (s :: rest) h (by simp)]
    rw [show String.mk ([] : List Char).reverse = "" from rfl]
    rw [List.foldl_cons]
    rw [show npStep (decide (slashCountOf (mkPath (s :: rest)) > 0)) [] "" = [] from by
      rw [npStep.eq_def, if_pos (by simp)]]
    rw [foldl_npStep_clean _ (s :: rest) h []]
    simp

theorem normpath_mkPath (segs : List String) (h : cleanSegs segs = true) :
    normpath (mkPath segs) = mkPath segs := by
  rw [normpath, if_neg (mkPath_ne_empty segs)]
  simp only [slashCountOf_mkPath segs h, normCompsOf_mkPath segs h]
  rw [show String.mk (List.replicate 1 '/') = "/" from rfl]
  rw [show ("/" ++ joinStr "/" segs : String) = mkPath segs from rfl]
  rw [if_neg (mkPath_ne_empty segs)]

/-- Characters of a slash-join of segments: a slash or a segment character. -/
theorem joinStr_chars (segs : List String) (c : Char)
    (hc : c ∈ (joinStr "/" segs).data) : c = '/' ∨ ∃ s ∈ segs, c ∈ s.data := by
  induction segs with
  | nil =>
    rw [show (joinStr "/" ([] : List String)).data = [] from rfl] at hc
    cases hc
  | cons s rest ih =>
    cases rest with
    | nil => exact Or.inr ⟨s, by simp, hc⟩
    | cons s2 r2 =>
      rw [joinStr_cons_cons, String.data_append, String.data_append,
        List.append_assoc] at hc
      rcases List.mem_append.mp hc with h3 | h3
      · exact Or.inr ⟨s, by simp, h3⟩
      · rw [show ("/" : String).data = ['/'] from rfl, List.singleton_append] at h3
        rcases List.mem_cons.mp h3 with h4 | h4
        · exact Or.inl h4
        · rcases ih h4 with h5 | ⟨s3, hs3, hcs3⟩
          · exact Or.inl h5
          · exact Or.inr ⟨s3, by simp [hs3], hcs3⟩

/-- Characters of a clean path: a slash or a character of some segment. -/
theorem mkPath_chars (segs : List String) (c : Char)
    (hc : c ∈ (mkPath segs).data) : c = '/' ∨ ∃ s ∈ segs, c ∈ s.data := by
  rw [mkPath_data] at hc
  rcases List.mem_cons.mp hc with h1 | h2
  · exact Or.inl h1
  · exact joinStr_chars segs c h2

theorem replaceBk_mkPath (segs : List String) (h : cleanSegs segs = true) :
    replaceBk (mkPath segs) = mkPath segs := by
  rw [replaceBk]
  have h2 : ∀ c ∈ (mkPath segs).data, (if c = '\\' then '/' else c) = c := by
    intro c hc
    rw [if_neg]
    intro hcb
    subst hcb
    rcases mkPath_chars segs '\\' hc with h3 | ⟨s, hs, hcs⟩
    · cases h3
    · exact ((cleanSeg_props s ((List.all_eq_true.mp h) s hs)).2.2.2 '\\' hcs).2.1 rfl
  rw [List.map_congr_left h2]
  have h3 : (mkPath segs).data.map (fun a => a) = (mkPath segs).data := by
    simp
  rw [h3]

theorem normalizePosix_mkPath (v : VirtualFileSystem) (segs : List String)
    (h : cleanSegs segs = true) : v.normalizePosix (mkPath segs) = mkPath segs := by
  rw [VirtualFileSystem.normalizePosix, if_neg (mkPath_ne_empty segs)]
  simp only [replaceBk_mkPath segs h, startsWithSlash_mkPath segs, if_pos,
    normpath_mkPath segs h]
  rw [if_neg (mkPath_ne_dot segs)]

/-! ### `dirname` / `basename` on clean paths -/

theorem lastSlashPos_no_slash (cs : List Char) (h : ∀ c ∈ cs, c ≠ '/') :
    lastSlashPos cs = 0 := by
  induction cs with
  | nil => rfl
  | cons c rest ih =>
    rw [lastSlashPos]
    simp only [ih (fun c2 h2 => h c2 (by simp [h2]))]
    rw [if_neg (by omega), if_neg (h c (by simp))]

theorem lastSlashPos_append_slash (xs ys : List Char) (h : ∀ c ∈ ys, c ≠ '/') :
    lastSlashPos (xs ++ '/' :: ys) = xs.length + 1 := by
  induction xs with
  | nil =>
    rw [List.nil_append, lastSlashPos]
    simp only [lastSlashPos_no_slash ys h]
    simp
  | cons x xs ih =>
    rw [List.cons_append, lastSlashPos]
    simp only [ih]
    rw [if_pos (by omega)]
    simp

theorem dropTrailSlashes_append_slash (xs : List Char) :
    dropTrailSlashes (xs ++ ['/']) = dropTrailSlashes xs := by
  rw [dropTrailSlashes, dropTrailSlashes, List.reverse_concat, List.dropWhile_cons]
  rw [if_pos (by simp)]

theorem dropTrailSlashes_last_ne (xs : List Char) (c : Char)
    (hc : xs.getLast? = some c) (h : c ≠ '/') : dropTrailSlashes xs = xs := by
  rw [dropTrailSlashes]
  have h1 : xs.reverse.head? = some c := by rw [List.head?_reverse]; exact hc
  cases hr : xs.reverse with
  | nil => rw [hr] at h1; cases h1
  | cons d tl =>
    rw [hr] at h1
    have : d = c := by cases h1; rfl
    subst this
    rw [List.dropWhile_cons, if_neg (by simp [h])]
    rw [← hr, List.reverse_reverse]

theorem joinStr_append_last (segs : List String) (l : String) (hne : segs ≠ []) :
    joinStr "/" (segs ++ [l]) = joinStr "/" segs ++ "/" ++ l := by
  induction segs with
  | nil => exact absurd rfl hne
  | cons s rest ih =>
    cases rest with
    | nil => rfl
    | cons s2 r2 =>
      rw [List.cons_append, joinStr_cons_cons]
      rw [show (s2 :: r2) ++ [l] = (s2 :: r2) ++ [l] from rfl] at ih
      rw [show joinStr "/" (s :: (s2 :: r2 ++ [l])) =
        s ++ "/" ++ joinStr "/" (s2 :: r2 ++ [l]) from rfl]
      rw [show (s2 :: r2) ++ [l] = s2 :: (r2 ++ [l]) from rfl] at ih
      rw [show s2 :: r2 ++ [l] = s2 :: (r2 ++ [l]) from rfl]
      rw [ih (by simp)]
      simp only [String.append_assoc]

/-- The last character of a slash-join of clean segments is a character of
one of the segments. -/
theorem joinStr_getLast_clean (segs : List String) (h : cleanSegs segs = true)
    (hne : segs ≠ []) :
    ∃ c, (joinStr "/" segs).data.getLast? = some c ∧
      ∃ s ∈ segs, c ∈ s.data := by
  induction segs with
  | nil => exact absurd rfl hne
  | cons s rest ih =>
    obtain ⟨hs, hrest⟩ := cleanSegs_cons s rest h
    cases rest with
    | nil =>
      have hd := data_ne_nil_of_ne_empty s (cleanSeg_props s hs).1
      cases hl : s.data.getLast? with
      | none => exact absurd (List.getLast?_eq_none_iff.mp hl) hd
      | some c =>
        exact ⟨c, hl, s, by simp, List.mem_of_getLast?_eq_some hl⟩
    | cons s2 r2 =>
      obtain ⟨c, hc, s3, hs3, hcs3⟩ := ih hrest (by simp)
      refine ⟨c, ?_, s3, by simp [hs3], hcs3⟩
      rw [joinStr_cons_cons, String.data_append]
      rw [List.getLast?_append, hc]
      rfl

theorem mkPath_getLast_clean (segs : List String) (h : cleanSegs segs = true)
    (hne : segs ≠ []) :
    ∃ c, (mkPath segs).data.getLast? = some c ∧ c ≠ '/' ∧ isPySpace c = false := by
  obtain ⟨c, hc, s, hs, hcs⟩ := joinStr_getLast_clean segs h hne
  have hprops := (cleanSeg_props s ((List.all_eq_true.mp h) s hs)).2.2.2 c hcs
  refine ⟨c, ?_, hprops.1, hprops.2.2⟩
  rw [mkPath_data, show ('/' :: (joinStr "/" segs).data) =
    ['/'] ++ (joinStr "/" segs).data from rfl, List.getLast?_append, hc]
  rfl

theorem pdirname_mkPath (segs : List String) (l : String)
    (h : cleanSegs (segs ++ [l]) = true) :
    pdirname (mkPath (segs ++ [l])) = mkPath segs := by
  have hl : cleanSeg l = true := (List.all_eq_true.mp h) l (by simp)
  have hsegs : cleanSegs segs = true := by
    rw [cleanSegs, List.all_eq_true]
    intro s hs
    exact (List.all_eq_true.mp h) s (by simp [hs])
  have hlchars := (cleanSeg_props l hl).2.2.2
  cases segs with
  | nil =>
    rw [pdirname]
    rw [show (mkPath ([] ++ [l])).data = '/' :: l.data from by
      rw [mkPath_data]; rfl]
    rw [show ('/' :: l.data) = [] ++ '/' :: l.data from rfl,
      lastSlashPos_append_slash [] l.data (fun c hc => (hlchars c hc).1)]
    simp only [List.length_nil, List.nil_append, List.take_succ_cons, List.take_zero]
    rw [if_neg (by simp)]
    rfl
  | cons s rest =>
    rw [pdirname]
    have hdata : (mkPath ((s :: rest) ++ [l])).data =
        ('/' :: (joinStr "/" (s :: rest)).data) ++ '/' :: l.data := by
      rw [show mkPath ((s :: rest) ++ [l]) = "/" ++ joinStr "/" ((s :: rest) ++ [l])
        from rfl]
      rw [joinStr_append_last (s :: rest) l (by simp)]
      rw [String.data_append, String.data_append, String.data_append]
      simp
    rw [hdata]
    rw [lastSlashPos_append_slash _ l.data (fun c hc => (hlchars c hc).1)]
    have htake : (('/' :: (joinStr "/" (s :: rest)).data) ++ '/' :: l.data).take
        (('/' :: (joinStr "/" (s :: rest)).data).length + 1) =
        ('/' :: (joinStr "/" (s :: rest)).data) ++ ['/'] := by
      rw [show ('/' :: (joinStr "/" (s :: rest)).data) ++ '/' :: l.data =
        (('/' :: (joinStr "/" (s :: rest)).data) ++ ['/']) ++ l.data from by simp]
      apply List.take_left'
      simp
    rw [htake]
    rw [if_pos ?side]
    case side =>
      constructor
      · simp
      · rw [List.any_eq_true]
        obtain ⟨hs, _⟩ := cleanSegs_cons s rest hsegs
        have hd := data_ne_nil_of_ne_empty s (cleanSeg_props s hs).1
        obtain ⟨t, ht⟩ := joinStr_data_head s rest
        cases hsd : s.data with
        | nil => exact absurd hsd hd
        | cons c0 cs0 =>
          refine ⟨c0, ?_, ?_⟩
          · rw [ht, hsd]
            simp
          · simp [((cleanSeg_props s hs).2.2.2 c0 (by rw [hsd]; simp)).1]
    rw [dropTrailSlashes_append_slash]
    obtain ⟨c, hc, hcslash, _⟩ := mkPath_getLast_clean (s :: rest) hsegs (by simp)
    rw [← mkPath_data]
    rw [dropTrailSlashes_last_ne _ c hc hcslash]


theorem pbasename_mkPath (segs : List String) (l : String)
    (h : cleanSegs (segs ++ [l]) = true) :
    pbasename (mkPath (segs ++ [l])) = l := by
  have hl : cleanSeg l = true := (List.all_eq_true.mp h) l (by simp)
  have hlchars := (cleanSeg_props l hl).2.2.2
  cases segs with
  | nil =>
    rw [pbasename]
    rw [show (mkPath ([] ++ [l])).data = '/' :: l.data from by
      rw [mkPath_data]; rfl]
    rw [show ('/' :: l.data) = [] ++ '/' :: l.data from rfl,
      lastSlashPos_append_slash [] l.data (fun c hc => (hlchars c hc).1)]
    simp only [List.length_nil, List.nil_append, List.drop_succ_cons, List.drop_zero]

  | cons s rest =>
    rw [pbasename]
    have hdata : (mkPath ((s :: rest) ++ [l])).data =
        ('/' :: (joinStr "/" (s :: rest)).data) ++ '/' :: l.data := by
      rw [show mkPath ((s :: rest) ++ [l]) = "/" ++ joinStr "/" ((s :: rest) ++ [l])
        from rfl]
      rw [joinStr_append_last (s :: rest) l (by simp)]
      rw [String.data_append, String.data_append, String.data_append]
      simp
    rw [hdata]
    rw [lastSlashPos_append_slash _ l.data (fun c hc => (hlchars c hc).1)]
    have hdrop : (('/' :: (joinStr "/" (s :: rest)).data) ++ '/' :: l.data).drop
        (('/' :: (joinStr "/" (s :: rest)).data).length + 1) = l.data := by
      rw [show ('/' :: (joinStr "/" (s :: rest)).data) ++ '/' :: l.data =
        (('/' :: (joinStr "/" (s :: rest)).data) ++ ['/']) ++ l.data from by simp]
      apply List.drop_left'
      simp
    rw [hdrop]

/-! ### `strip` and normalization facts -/

theorem dropWhile_head_false (p : Char → Bool) (l : List Char)
    (h : ∀ c, l.head? = some c → p c = false) : l.dropWhile p = l := by
  cases l with
  | nil => rfl
  | cons c tl => rw [List.dropWhile_cons, if_neg (by simp [h c rfl])]

theorem pyStrip_mkPath (segs : List String) (h : cleanSegs segs = true) :
    pyStrip (mkPath segs) = mkPath segs := by
  cases segs with
  | nil => decide
  | cons s rest =>
    rw [pyStrip]
    have h1 : (mkPath (s :: rest)).data.dropWhile isPySpace =
        (mkPath (s :: rest)).data := by
      apply dropWhile_head_false
      intro c hc
      rw [mkPath_data] at hc
      have : c = '/' := by cases hc; rfl
      subst this
      decide
    rw [h1]
    obtain ⟨c, hc, _, hcspace⟩ := mkPath_getLast_clean (s :: rest) h (by simp)
    have h2 : (mkPath (s :: rest)).data.reverse.dropWhile isPySpace =
        (mkPath (s :: rest)).data.reverse := by
      apply dropWhile_head_false
      intro c2 hc2
      rw [List.head?_reverse, hc] at hc2
      have : c2 = c := by cases hc2; rfl
      subst this
      exact hcspace
    rw [h2, List.reverse_reverse]

theorem startsWithSlash_slash_append (x : String) :
    startsWithSlash ("/" ++ x) = true := by
  rw [startsWithSlash, String.data_append]
  rfl

theorem replaceBk_empty_iff (p : String) : replaceBk p = "" ↔ p = "" := by
  constructor
  · intro h
    have := congrArg String.data h
    rw [replaceBk] at this
    cases hd : p.data with
    | nil => rw [← String.mk_data p, hd]
    | cons c tl => rw [hd] at this; cases this
  · intro h
    subst h
    rfl

theorem replaceBk_head_slash (p : String) (h : startsWithSlash p = true) :
    startsWithSlash (replaceBk p) = true := by
  rw [startsWithSlash] at h ⊢
  rw [replaceBk]
  cases hd : p.data with
  | nil => rw [hd] at h; cases h
  | cons c tl =>
    rw [hd] at h
    have : c = '/' := by simp at h; exact h
    subst this
    rfl

theorem normalizePosix_starts (v : VirtualFileSystem) (p : String) (hp : p ≠ "") :
    startsWithSlash (v.normalizePosix p) = true := by
  rw [VirtualFileSystem.normalizePosix, if_neg hp]
  simp only []
  generalize (if startsWithSlash (replaceBk p) = true then normpath (replaceBk p)
    else normpath (pjoin v.cwd (replaceBk p))) = norm
  by_cases h1 : norm = "."
  · rw [if_pos h1]; decide
  · rw [if_neg h1]
    by_cases h2 : startsWithSlash norm = true
    · rw [if_pos h2]; exact h2
    · rw [if_neg h2]; exact startsWithSlash_slash_append norm

/-- An absolute argument is normalized identically whatever the current
state (the `cwd` join branch is not taken). -/
theorem normalizePosix_abs_irrelevant (v w : VirtualFileSystem) (p : String)
    (h : startsWithSlash (replaceBk p) = true) :
    v.normalizePosix p = w.normalizePosix p := by
  have hp : p ≠ "" := by
    intro he
    subst he
    rw [show replaceBk "" = "" from rfl] at h
    simp [startsWithSlash] at h
  rw [VirtualFileSystem.normalizePosix, VirtualFileSystem.normalizePosix,
    if_neg hp, if_neg hp]
  simp only [h, if_pos]

/-- `_get_node` on an absolute path only looks at the root. -/
theorem getNode_abs_irrelevant (r : VEntry) (c1 c2 p : String)
    (h : startsWithSlash (replaceBk p) = true) :
    VirtualFileSystem.getNode ⟨r, c1⟩ p = VirtualFileSystem.getNode ⟨r, c2⟩ p := by
  rw [VirtualFileSystem.getNode, VirtualFileSystem.getNode]
  simp only []
  rw [normalizePosix_abs_irrelevant ⟨r, c1⟩ ⟨r, c2⟩ p h]

/-! ### Loader state lemmas -/

theorem mkPath_nil : mkPath [] = "/" := rfl

theorem attachAt_ok_shape (segs : List String) (n : String) (ch : List VEntry)
    (c : VEntry) (m : String) (r : VEntry)
    (h : attachAt (.dir n ch) segs c m = .ok r) : ∃ chr, r = .dir n chr := by
  cases segs with
  | nil =>
    rw [attachAt_nil_dir] at h
    cases h
    exact ⟨addChild ch c, rfl⟩
  | cons s rest =>
    cases hg : getChild ch s with
    | none => rw [attachAt_cons_none n s ch rest c m hg] at h; cases h
    | some c0 =>
      cases ha : attachAt c0 rest c m with
      | error m2 => rw [attachAt_cons_some_err n s m m2 ch rest c c0 hg ha] at h; cases h
      | ok c2 =>
        rw [attachAt_cons_some_ok n s ch rest c c0 c2 m hg ha] at h
        cases h
        exact ⟨addChild ch c2, rfl⟩

theorem ensureDir_shape (v : VirtualFileSystem) (q n : String) (ch : List VEntry)
    (v1 : VirtualFileSystem) (hr : v.root = .dir n ch)
    (h : v.ensureDir q = .ok v1) :
    (∃ ch1, v1.root = .dir n ch1) ∧ v1.cwd = v.cwd := by
  rw [VirtualFileSystem.ensureDir] at h
  by_cases ha : v.normalizePosix q = "/"
  · rw [if_pos ha] at h
    cases h
    exact ⟨⟨ch, hr⟩, rfl⟩
  · rw [if_neg ha] at h
    cases he : ensureSegs v.root (partsOf (v.normalizePosix q)) with
    | error m => rw [he] at h; cases h
    | ok r =>
      rw [he] at h
      cases h
      rw [hr] at he
      obtain ⟨ch1, hch1⟩ := ensureSegs_ok_shape _ n ch r he
      exact ⟨⟨ch1, hch1⟩, rfl⟩

theorem ensureAttach_shape (v : VirtualFileSystem) (path content msg n : String)
    (ch : List VEntry) (v2 : VirtualFileSystem) (hr : v.root = VEntry.dir n ch)
    (h : ensureAttach v path content msg = .ok v2) :
    (∃ ch2, v2.root = VEntry.dir n ch2) ∧ v2.cwd = v.cwd := by
  rw [ensureAttach] at h
  split at h
  · cases h
  · rename_i v1 he
    split at h
    · rename_i r hat
      cases h
      obtain ⟨⟨ch1, hch1⟩, hcwd1⟩ := ensureDir_shape v _ n ch v1 hr he
      rw [hch1] at hat
      obtain ⟨chr2, hchr2⟩ := attachAt_ok_shape _ n ch1 _ _ r hat
      exact ⟨⟨chr2, hchr2⟩, hcwd1⟩
    · cases h

theorem loadRow_shape (v : VirtualFileSystem) (row : List String) (n : String)
    (ch : List VEntry) (v2 : VirtualFileSystem) (hr : v.root = VEntry.dir n ch)
    (h : loadRow v row = .ok v2) :
    (∃ ch2, v2.root = VEntry.dir n ch2) ∧ v2.cwd = v.cwd := by
  rw [loadRow] at h
  by_cases hblank : (row.all fun cell => pyStrip cell = "") = true
  · rw [if_pos hblank] at h
    cases h
    exact ⟨⟨ch, hr⟩, rfl⟩
  · rw [if_neg hblank] at h
    simp only [] at h
    by_cases hpath : pyStrip ((row.get? 0).getD "") = ""
    · rw [if_pos hpath] at h
      cases h
      exact ⟨⟨ch, hr⟩, rfl⟩
    · rw [if_neg hpath] at h
      by_cases htyp : pyLower (pyStrip ((row.get? 1).getD "")) = "dir"
      · rw [if_pos htyp] at h
        exact ensureDir_shape v _ n ch v2 hr h
      · rw [if_neg htyp] at h
        by_cases htyp2 : pyLower (pyStrip ((row.get? 1).getD "")) = "file"
        · rw [if_pos htyp2] at h
          exact ensureAttach_shape v _ _ _ n ch v2 hr h
        · rw [if_neg htyp2] at h
          exact ensureAttach_shape v _ _ _ n ch v2 hr h

theorem loadRows_shape (rows : List (List String)) (v : VirtualFileSystem)
    (n : String) (ch : List VEntry) (v2 : VirtualFileSystem)
    (hr : v.root = .dir n ch) (h : loadRows v rows = .ok v2) :
    (∃ ch2, v2.root = .dir n ch2) ∧ v2.cwd = v.cwd := by
  induction rows generalizing v ch with
  | nil =>
    rw [loadRows] at h
    cases h
    exact ⟨⟨ch, hr⟩, rfl⟩
  | cons r rest ih =>
    rw [loadRows] at h
    cases hrow : loadRow v r with
    | error m => rw [hrow] at h; cases h
    | ok vMid =>
      rw [hrow] at h
      obtain ⟨⟨chMid, hchMid⟩, hcwdMid⟩ := loadRow_shape v r n ch vMid hr hrow
      obtain ⟨h2, hcwd2⟩ := ih vMid chMid hchMid h
      exact ⟨h2, by rw [hcwd2, hcwdMid]⟩

theorem loadRows_append (a b : List (List String)) (v : VirtualFileSystem) :
    loadRows v (a ++ b) =
      match loadRows v a with
      | .ok v2 => loadRows v2 b
      | .error m => .error m := by
  induction a generalizing v with
  | nil => rw [List.nil_append, loadRows]
  | cons r rest ih =>
    rw [List.cons_append, loadRows, loadRows]
    cases hrow : loadRow v r with
    | error m => rfl
    | ok v2 => exact ih v2

/-! ### State-threaded views of the read-only operations

The Python methods `ls`, `tree` and `read_file` assign no attribute of
`self`; pairing their result with the unchanged state makes that explicit,
in the same shape as `cd` (the only method that assigns one). -/

def VirtualFileSystem.lsOp (v : VirtualFileSystem) (p : Option String) :
    Except String (List String) × VirtualFileSystem :=
  (v.ls p, v)

def VirtualFileSystem.treeOp (v : VirtualFileSystem) (p : Option String)
    (md : Option Nat) : Except String String × VirtualFileSystem :=
  (v.tree p md, v)

def VirtualFileSystem.readFileOp (v : VirtualFileSystem) (p : String) (dec : Bool) :
    Except String (List Nat) × VirtualFileSystem :=
  (v.readFile p dec, v)

/-- The engine states reachable from a successful load by any sequence of
engine operations. -/
inductive ReachableVFS : VirtualFileSystem → Prop where
  | load (rows : List (List String)) (v : VirtualFileSystem)
      (h : loadVFS rows = .ok v) : ReachableVFS v
  | stepCd (v : VirtualFileSystem) (p : String) (h : ReachableVFS v) :
      ReachableVFS (v.cd p).2
  | stepLs (v : VirtualFileSystem) (p : Option String) (h : ReachableVFS v) :
      ReachableVFS (v.lsOp p).2
  | stepTree (v : VirtualFileSystem) (p : Option String) (md : Option Nat)
      (h : ReachableVFS v) : ReachableVFS (v.treeOp p md).2
  | stepRead (v : VirtualFileSystem) (p : String) (dec : Bool)
      (h : ReachableVFS v) : ReachableVFS (v.readFileOp p dec).2

/-! ### `cd` unfolding lemmas -/

theorem cd_empty (v : VirtualFileSystem) :
    v.cd "" = (.ok (), { v with cwd := "/" }) := by
  rw [VirtualFileSystem.cd, if_pos rfl]

theorem cd_none (v : VirtualFileSystem) (p : String) (hp : p ≠ "")
    (hg : v.getNode (v.normalizePosix p) = none) :
    v.cd p = (.error ("No such directory: " ++ p), v) := by
  rw [VirtualFileSystem.cd, if_neg hp]
  simp only [hg]

theorem cd_file (v : VirtualFileSystem) (p nf cf : String) (hp : p ≠ "")
    (hg : v.getNode (v.normalizePosix p) = some (.file nf cf)) :
    v.cd p = (.error ("Not a directory: " ++ p), v) := by
  rw [VirtualFileSystem.cd, if_neg hp]
  simp only [hg]

theorem cd_dir (v : VirtualFileSystem) (p nd : String) (chd : List VEntry)
    (hp : p ≠ "") (hg : v.getNode (v.normalizePosix p) = some (.dir nd chd)) :
    v.cd p = (.ok (), { v with cwd := v.normalizePosix p }) := by
  rw [VirtualFileSystem.cd, if_neg hp]
  simp only [hg]

/-! ## Claims -/

/-- C1 (counterexample): the dispatcher of `ShellEmulator.run_command` sends
the verbs `chmod` and `rm` to the unknown-command branch, not to any engine
operation — the engine does not even have such operations. -/
theorem C1_counterexample :
    runCommandHandler "chmod" = Handler.unknown ∧
    runCommandHandler "rm" = Handler.unknown := by
  decide

/-- C1 (amended): the dispatcher maps exactly the verbs `exit`, `ls`, `cd`,
`vfs-info`, `tree`, `uname` and `whoami` to their handlers; every other verb
— including `chmod` and `rm` — produces the UnknownCommand outcome. -/
theorem C1_dispatch_closed_set :
    (runCommandHandler "exit" = Handler.cmdExit ∧
     runCommandHandler "ls" = Handler.cmdLs ∧
     runCommandHandler "cd" = Handler.cmdCd ∧
     runCommandHandler "vfs-info" = Handler.cmdVfsInfo ∧
     runCommandHandler "tree" = Handler.cmdTree ∧
     runCommandHandler "uname" = Handler.cmdUname ∧
     runCommandHandler "whoami" = Handler.cmdWhoami) ∧
    ∀ c : String, c ∉ ["exit", "ls", "cd", "vfs-info", "tree", "uname", "whoami"] →
      runCommandHandler c = Handler.unknown := by
  refine ⟨by decide, ?_⟩
  intro c hc
  simp only [List.mem_cons, List.not_mem_nil, or_false, not_or] at hc
  obtain ⟨h1, h2, h3, h4, h5, h6, h7⟩ := hc
  simp [runCommandHandler, h1, h2, h3, h4, h5, h6, h7]

/-- C1 (witness): the amended dispatch theorem applied to the verb `rm`. -/
theorem C1_witness : runCommandHandler "rm" = Handler.unknown :=
  C1_dispatch_closed_set.2 "rm" (by decide)

/-- C2: what the loader actually builds — every node carries only a name,
the parent link, and content (files) or children (directories); there is no
`mode` attribute anywhere, so no 0o644 / 0o755 defaults exist. -/
theorem C2_loader_node_shape :
    loadVFS [["/a", "dir", ""], ["/b.txt", "file", "hi"]] =
      .ok { root := .dir "" [.dir "a" [], .file "b.txt" "hi"], cwd := "/" } := rfl

/-- C8: every engine operation that fails with a recoverable error leaves
the tree and the cwd exactly as they were — `ls`, `tree` and `read_file`
never assign state, and `cd` assigns `cwd` only on the success path. -/
theorem C8_recoverable_failure_preserves_state :
    ∀ v : VirtualFileSystem,
      (∀ p m, (v.cd p).1 = .error m → (v.cd p).2 = v) ∧
      (∀ p, (v.lsOp p).2 = v) ∧
      (∀ p md, (v.treeOp p md).2 = v) ∧
      (∀ p dec, (v.readFileOp p dec).2 = v) := by
  intro v
  refine ⟨?_, fun p => rfl, fun p md => rfl, fun p dec => rfl⟩
  intro p m h
  by_cases hp : p = ""
  · subst hp
    rw [cd_empty] at h
    simp at h
  · cases hg : v.getNode (v.normalizePosix p) with
    | none => rw [cd_none v p hp hg]
    | some e =>
      cases e with
      | file nf cf => rw [cd_file v p nf cf hp hg]
      | dir nd chd =>
        rw [cd_dir v p nd chd hp hg] at h
        simp at h

/-- C8 (witness): a failing `cd` on a concrete empty engine returns the
state unchanged. -/
theorem C8_witness :
    (VirtualFileSystem.cd { root := VEntry.dir "" [], cwd := "/" } "/zz").2 =
      { root := VEntry.dir "" [], cwd := "/" } :=
  (C8_recoverable_failure_preserves_state { root := VEntry.dir "" [], cwd := "/" }).1
    "/zz" "No such directory: /zz" rfl

/-! ### Sortedness of `sorted(...)` -/

theorem sortedStrings_sorted (l : List String) :
    List.Sorted (fun a b => a ≤ b) (sortedStrings l) := by
  rw [sortedStrings]
  have h := @List.sorted_mergeSort String (fun a b : String => a ≤ b)
    (fun a b c h1 h2 => decide_eq_true
      (le_trans (of_decide_eq_true h1) (of_decide_eq_true h2)))
    (fun a b => Bool.or_eq_true _ _ |>.mpr
      ((le_total a b).imp decide_eq_true decide_eq_true))
    l
  exact h.imp (fun h2 => of_decide_eq_true h2)

theorem sortedStrings_perm (l : List String) : (sortedStrings l).Perm l :=
  List.mergeSort_perm l _

/-- C5: `ls` resolves its target (the cwd when no path is given); a
directory lists its child names sorted lexicographically ascending (a
sorted permutation of the children's names), a file lists exactly its own
name, and an unresolved path is an error. -/
theorem C5_ls_spec :
    ∀ (v : VirtualFileSystem) (p : Option String),
      (p = none → v.ls p = v.ls (some v.cwd)) ∧
      (v.getNode (targetOf v p) = none → ∃ m, v.ls p = .error m) ∧
      (∀ n ch, v.getNode (targetOf v p) = some (.dir n ch) →
        v.ls p = .ok (sortedStrings (ch.map VEntry.name)) ∧
        List.Sorted (fun a b => a ≤ b) (sortedStrings (ch.map VEntry.name)) ∧
        (sortedStrings (ch.map VEntry.name)).Perm (ch.map VEntry.name)) ∧
      (∀ n c, v.getNode (targetOf v p) = some (.file n c) → v.ls p = .ok [n]) := by
  intro v p
  refine ⟨?_, ?_, ?_, ?_⟩
  · intro hp
    subst hp
    rfl
  · intro hg
    refine ⟨"No such file or directory: " ++ targetOf v p, ?_⟩
    rw [VirtualFileSystem.ls]
    simp only [hg]
  · intro n ch hg
    refine ⟨?_, sortedStrings_sorted _, sortedStrings_perm _⟩
    rw [VirtualFileSystem.ls]
    simp only [hg]
  · intro n c hg
    rw [VirtualFileSystem.ls]
    simp only [hg]

/-- C5 (witness): `ls("/a")` on the loaded two-row scenario tree lists the
single file name. -/
theorem C5_witness :
    VirtualFileSystem.ls
      { root := VEntry.dir "" [VEntry.dir "a" [VEntry.file "b.txt" "hello"]], cwd := "/" }
      (some "/a") =
    .ok (sortedStrings (List.map VEntry.name [VEntry.file "b.txt" "hello"])) :=
  ((C5_ls_spec
      { root := VEntry.dir "" [VEntry.dir "a" [VEntry.file "b.txt" "hello"]], cwd := "/" }
      (some "/a")).2.2.1 "a" [VEntry.file "b.txt" "hello"] rfl).1

/-! ### Facts about `normpath` on absolute inputs -/

theorem replaceBk_idem (p : String) : replaceBk (replaceBk p) = replaceBk p := by
  rw [replaceBk, replaceBk]
  rw [show (String.mk (p.data.map (fun c => if c = '\\' then '/' else c))).data =
    p.data.map (fun c => if c = '\\' then '/' else c) from rfl]
  rw [List.map_map]
  apply congrArg String.mk
  apply List.map_congr_left
  intro c hc
  by_cases h : c = '\\'
  · subst h; rfl
  · simp [h]

theorem pjoin_starts (a b : String) (ha : startsWithSlash a = true) :
    startsWithSlash (pjoin a b) = true := by
  rw [pjoin]
  by_cases hb : startsWithSlash b = true
  · rw [if_pos hb]; exact hb
  · rw [if_neg hb]
    by_cases h2 : (a = "" || endsWithSlash a) = true
    · rw [if_pos h2]; exact startsWithSlash_append a b ha
    · rw [if_neg h2]
      rw [String.append_assoc]
      exact startsWithSlash_append a ("/" ++ b) ha

theorem slashCountOf_cases (q : String) (hq : startsWithSlash q = true) :
    slashCountOf q = 1 ∨ slashCountOf q = 2 := by
  rw [slashCountOf, if_pos hq]
  by_cases h2 : (startsWith2Slash q && !startsWith3Slash q) = true
  · rw [if_pos h2]; exact Or.inr rfl
  · rw [if_neg h2]; exact Or.inl rfl

theorem normpath_abs (q : String) (hq : startsWithSlash q = true) :
    normpath q = String.mk (List.replicate (slashCountOf q) '/') ++
      joinStr "/" (normCompsOf q) ∧
    startsWithSlash (normpath q) = true ∧ normpath q ≠ "." := by
  have hne : q ≠ "" := startsWithSlash_ne_empty q hq
  have hk : slashCountOf q = 1 ∨ slashCountOf q = 2 := slashCountOf_cases q hq
  have hdata : ∃ t, (String.mk (List.replicate (slashCountOf q) '/') ++
      joinStr "/" (normCompsOf q)).data = '/' :: t := by
    rw [String.data_append]
    cases hk with
    | inl h1 => rw [h1]; exact ⟨(joinStr "/" (normCompsOf q)).data, rfl⟩
    | inr h2 => rw [h2]; exact ⟨'/' :: (joinStr "/" (normCompsOf q)).data, rfl⟩
  obtain ⟨t, ht⟩ := hdata
  have hres : normpath q = String.mk (List.replicate (slashCountOf q) '/') ++
      joinStr "/" (normCompsOf q) := by
    rw [normpath, if_neg hne]
    simp only []
    rw [if_neg]
    intro h0
    have := congrArg String.data h0
    rw [ht] at this
    cases this
  refine ⟨hres, ?_, ?_⟩
  · rw [hres, startsWithSlash, ht]; rfl
  · rw [hres]
    intro h0
    have := congrArg String.data h0
    rw [ht] at this
    cases this

/-! ### The component loop of `normpath` never emits `.` or `..` on
absolute inputs -/

theorem npStep_skip (b : Bool) (acc : List String) (comp : String)
    (h : comp = "" ∨ comp = ".") : npStep b acc comp = acc := by
  rw [npStep.eq_def, if_pos]
  rcases h with h | h <;> simp [h]

theorem npStep_push (b : Bool) (acc : List String) (comp : String)
    (h1 : comp ≠ "") (h2 : comp ≠ ".") (h3 : comp ≠ "..") :
    npStep b acc comp = comp :: acc := by
  rw [npStep.eq_def, if_neg (by simp [h1, h2]), if_pos (by simp [h3])]

theorem npStep_dotdot (acc : List String)
    (h : acc.head? ≠ some "..") : npStep true acc ".." = acc.tail := by
  rw [npStep.eq_def, if_neg (by simp), if_neg (by simp [h])]
  cases acc <;> rfl

theorem foldl_npStep_no_dots (comps : List String) :
    ∀ acc : List String,
      acc.all (fun comp => comp ≠ "" && comp ≠ "." && comp ≠ "..") = true →
      (comps.foldl (npStep true) acc).all
        (fun comp => comp ≠ "" && comp ≠ "." && comp ≠ "..") = true := by
  induction comps with
  | nil => intro acc h; exact h
  | cons comp rest ih =>
    intro acc hacc
    rw [List.foldl_cons]
    by_cases h1 : comp = "" ∨ comp = "."
    · rw [npStep_skip true acc comp h1]
      exact ih acc hacc
    · push_neg at h1
      by_cases h2 : comp = ".."
      · subst h2
        have hhd : acc.head? ≠ some ".." := by
          cases acc with
          | nil => simp
          | cons a t =>
            rw [List.all_cons, Bool.and_eq_true] at hacc
            have := hacc.1
            simp only [Bool.and_eq_true, decide_eq_true_eq] at this
            simp [this.2]
        rw [npStep_dotdot acc hhd]
        apply ih
        cases acc with
        | nil => rfl
        | cons a t =>
          rw [List.all_cons, Bool.and_eq_true] at hacc
          exact hacc.2
      · rw [npStep_push true acc comp h1.1 h1.2 h2]
        apply ih
        rw [List.all_cons, Bool.and_eq_true]
        refine ⟨?_, hacc⟩
        simp [h1.1, h1.2, h2]

theorem normComps_no_dots (q : String) (hq : startsWithSlash q = true) :
    (normCompsOf q).all (fun comp => comp ≠ "" && comp ≠ "." && comp ≠ "..") = true := by
  rw [normCompsOf]
  have hb : decide (slashCountOf q > 0) = true := by
    rcases slashCountOf_cases q hq with h | h <;> rw [h] <;> rfl
  rw [hb, List.all_reverse]
  exact foldl_npStep_no_dots (splitSlash q.data) [] rfl

theorem stringDataExt (a b : String) (h : a.data = b.data) : a = b := by
  rw [← String.mk_data a, ← String.mk_data b, h]

theorem splitSlash_joinStr_plain (segs : List String)
    (h : ∀ s ∈ segs, s ≠ "" ∧ ∀ c ∈ s.data, c ≠ '/') (hne : segs ≠ []) :
    splitSlashAux [] (joinStr "/" segs).data = segs := by
  induction segs with
  | nil => exact absurd rfl hne
  | cons s rest ih =>
    have hchars := (h s (by simp)).2
    cases rest with
    | nil =>
      rw [show joinStr "/" [s] = s from rfl]
      rw [splitSlashAux_no_slash s.data hchars []]
      simp [String.mk_data]
    | cons s2 r2 =>
      rw [joinStr_cons_cons, String.data_append, String.data_append,
        show ("/" : String).data = ['/'] from rfl, List.append_assoc,
        List.singleton_append]
      rw [splitSlashAux_append_slash s.data _ hchars []]
      rw [ih (fun s3 h3 => h s3 (by simp [h3])) (by simp)]
      simp [String.mk_data]

theorem splitSlashAux_elems_no_slash (cs : List Char) :
    ∀ cur, (∀ c ∈ cur, c ≠ '/') →
      ∀ s ∈ splitSlashAux cur cs, ∀ c ∈ s.data, c ≠ '/' := by
  induction cs with
  | nil =>
    intro cur hcur s hs c hc
    rw [splitSlashAux] at hs
    rcases List.mem_singleton.mp hs with h
    subst h
    rw [show (String.mk cur.reverse).data = cur.reverse from rfl] at hc
    exact hcur c (List.mem_reverse.mp hc)
  | cons c0 rest ih =>
    intro cur hcur s hs c hc
    rw [splitSlashAux] at hs
    by_cases h0 : c0 = '/'
    · rw [if_pos h0] at hs
      rcases List.mem_cons.mp hs with h | h
      · subst h
        rw [show (String.mk cur.reverse).data = cur.reverse from rfl] at hc
        exact hcur c (List.mem_reverse.mp hc)
      · exact ih [] (by simp) s h c hc
    · rw [if_neg h0] at hs
      refine ih (c0 :: cur) ?_ s hs c hc
      intro c2 hc2
      rcases List.mem_cons.mp hc2 with h | h
      · subst h; exact h0
      · exact hcur c2 h

theorem npStep_mem (b : Bool) (acc : List String) (comp x : String)
    (hx : x ∈ npStep b acc comp) : x = comp ∨ x ∈ acc := by
  rw [npStep.eq_def] at hx
  split at hx
  · exact Or.inr hx
  · split at hx
    · rcases List.mem_cons.mp hx with h | h
      · exact Or.inl h
      · exact Or.inr h
    · split at hx
      · cases hx
      · exact Or.inr (List.mem_cons_of_mem _ hx)

theorem foldl_npStep_mem (b : Bool) (comps : List String) :
    ∀ (acc : List String) (x : String), x ∈ comps.foldl (npStep b) acc →
      x ∈ acc ∨ x ∈ comps := by
  induction comps with
  | nil => intro acc x hx; exact Or.inl hx
  | cons comp rest ih =>
    intro acc x hx
    rw [List.foldl_cons] at hx
    rcases ih (npStep b acc comp) x hx with h | h
    · rcases npStep_mem b acc comp x h with h2 | h2
      · exact Or.inr (by simp [h2])
      · exact Or.inl h2
    · exact Or.inr (by simp [h])

theorem normComps_plain (q : String) (hq : startsWithSlash q = true) :
    ∀ s ∈ normCompsOf q, s ≠ "" ∧ ∀ c ∈ s.data, c ≠ '/' := by
  intro s hs
  constructor
  · have hall := normComps_no_dots q hq
    have := (List.all_eq_true.mp hall) s hs
    simp only [Bool.and_eq_true, decide_eq_true_eq] at this
    exact this.1.1
  · rw [normCompsOf, List.mem_reverse] at hs
    rcases foldl_npStep_mem _ (splitSlash q.data) [] s hs with h | h
    · cases h
    · exact splitSlashAux_elems_no_slash q.data [] (by simp) s h

theorem partsOf_normpath_abs (q : String) (hq : startsWithSlash q = true) :
    partsOf (normpath q) = normCompsOf q := by
  obtain ⟨hres, _, _⟩ := normpath_abs q hq
  rw [hres, partsOf, String.data_append,
    show (String.mk (List.replicate (slashCountOf q) '/')).data =
      List.replicate (slashCountOf q) '/' from rfl]
  by_cases hcomps : normCompsOf q = []
  · rw [hcomps]
    rw [show joinStr "/" ([] : List String) = "" from rfl]
    rcases slashCountOf_cases q hq with hk | hk <;> rw [hk] <;> rfl
  · have hplain := normComps_plain q hq
    have hsplitjoin := splitSlash_joinStr_plain (normCompsOf q) hplain hcomps
    have hfilter : List.filter (fun s => s ≠ "") (normCompsOf q) = normCompsOf q := by
      rw [List.filter_eq_self]
      intro a ha
      simp [(hplain a ha).1]
    rcases slashCountOf_cases q hq with hk | hk
    · rw [hk]
      rw [show List.replicate 1 '/' ++ (joinStr "/" (normCompsOf q)).data =
        '/' :: (joinStr "/" (normCompsOf q)).data from rfl]
      rw [splitSlash, splitSlashAux, if_pos rfl, hsplitjoin]
      rw [List.filter_cons]
      simp only [decide_eq_true_eq]
      rw [if_neg (by simp)]
      exact hfilter
    · rw [hk]
      rw [show List.replicate 2 '/' ++ (joinStr "/" (normCompsOf q)).data =
        '/' :: '/' :: (joinStr "/" (normCompsOf q)).data from rfl]
      rw [splitSlash, splitSlashAux, if_pos rfl, splitSlashAux, if_pos rfl, hsplitjoin]
      rw [List.filter_cons, List.filter_cons]
      simp only [decide_eq_true_eq]
      rw [if_neg (by simp), if_neg (by simp)]
      exact hfilter

/-- C4 (counterexample): the input `"//"` has no path segments at all — it
collapses to nothing — yet `_normalize_posix` returns `"//"`, not `"/"`,
because `posixpath.normpath` preserves a POSIX double-slash prefix. -/
theorem C4_counterexample :
    (splitSlash ("//" : String).data).filter (fun s => s ≠ "") = [] ∧
    VirtualFileSystem.normalizePosix { root := VEntry.dir "" [], cwd := "/" } "//" = "//" ∧
    ("//" : String) ≠ "/" := by
  refine ⟨rfl, rfl, by decide⟩

/-- C4 (amended): with an absolute cwd, `_normalize_posix` returns the cwd
on empty input, treats backslashes as slashes, returns exactly the
`normpath` of the absolute input (or of the input joined under the cwd),
ignores the cwd for absolute inputs, always returns a string starting with
`/`, leaves no empty, `.` or `..` segments in the result, and maps an input
that collapses to nothing to `/` — except that an input starting with
exactly two slashes collapses to `//`. -/
theorem C4_normalize_spec :
    ∀ (v : VirtualFileSystem) (p : String), startsWithSlash v.cwd = true →
      (p = "" → v.normalizePosix p = v.cwd) ∧
      (v.normalizePosix (replaceBk p) = v.normalizePosix p) ∧
      (p ≠ "" → v.normalizePosix p =
        normpath (if startsWithSlash (replaceBk p) then replaceBk p
                  else pjoin v.cwd (replaceBk p))) ∧
      (∀ w : VirtualFileSystem, startsWithSlash (replaceBk p) = true →
        v.normalizePosix p = w.normalizePosix p) ∧
      (startsWithSlash (v.normalizePosix p) = true) ∧
      (p ≠ "" →
        partsOf (v.normalizePosix p) =
          normCompsOf (if startsWithSlash (replaceBk p) then replaceBk p
                       else pjoin v.cwd (replaceBk p)) ∧
        (normCompsOf (if startsWithSlash (replaceBk p) then replaceBk p
                      else pjoin v.cwd (replaceBk p))).all
          (fun comp => comp ≠ "" && comp ≠ "." && comp ≠ "..") = true) ∧
      (p ≠ "" →
        normCompsOf (if startsWithSlash (replaceBk p) then replaceBk p
                     else pjoin v.cwd (replaceBk p)) = [] →
        v.normalizePosix p =
          (if slashCountOf (if startsWithSlash (replaceBk p) then replaceBk p
                            else pjoin v.cwd (replaceBk p)) = 2 then "//" else "/")) := by
  intro v p hcwd
  by_cases hp : p = ""
  · subst hp
    refine ⟨fun _ => by rw [VirtualFileSystem.normalizePosix, if_pos rfl], rfl,
      fun h => absurd rfl h, ?_, ?_, fun h => absurd rfl h, fun h => absurd rfl h⟩
    · intro w habs
      rw [show replaceBk "" = "" from rfl] at habs
      simp [startsWithSlash] at habs
    · rw [VirtualFileSystem.normalizePosix, if_pos rfl]
      exact hcwd
  · have heff : startsWithSlash (if startsWithSlash (replaceBk p) then replaceBk p
        else pjoin v.cwd (replaceBk p)) = true := by
      by_cases habs : startsWithSlash (replaceBk p) = true
      · rw [if_pos habs]; exact habs
      · rw [if_neg habs]; exact pjoin_starts v.cwd (replaceBk p) hcwd
    have hmain : v.normalizePosix p =
        normpath (if startsWithSlash (replaceBk p) then replaceBk p
                  else pjoin v.cwd (replaceBk p)) := by
      rw [VirtualFileSystem.normalizePosix, if_neg hp]
      simp only []
      rw [← apply_ite normpath]
      obtain ⟨_, hstart, hdot⟩ := normpath_abs _ heff
      rw [if_neg hdot, if_pos hstart]
    refine ⟨fun h => absurd h hp, ?_, fun _ => hmain, ?_, ?_, ?_, ?_⟩
    · -- backslashes are separators: replacing first changes nothing
      have hbne : replaceBk p ≠ "" := fun h => hp (replaceBk_empty_iff p |>.mp h)
      rw [VirtualFileSystem.normalizePosix, VirtualFileSystem.normalizePosix,
        if_neg hp, if_neg hbne, replaceBk_idem]
    · intro w habs
      exact normalizePosix_abs_irrelevant v w p habs
    · rw [hmain]
      exact (normpath_abs _ heff).2.1
    · intro _
      refine ⟨?_, normComps_no_dots _ heff⟩
      rw [hmain]
      exact partsOf_normpath_abs _ heff
    · intro _ hnil
      rw [hmain, (normpath_abs _ heff).1, hnil]
      rw [show joinStr "/" ([] : List String) = "" from rfl]
      rcases slashCountOf_cases _ heff with hk | hk
      · rw [hk, if_neg (by omega)]
        rfl
      · rw [hk, if_pos rfl]
        rfl

/-- C4 (witness): the amended normalization theorem applied to the relative
input `a/../b` under cwd `/x`: the result starts with a slash. -/
theorem C4_witness :
    startsWithSlash
      (VirtualFileSystem.normalizePosix { root := VEntry.dir "" [], cwd := "/x" }
        "a/../b") = true :=
  (C4_normalize_spec { root := VEntry.dir "" [], cwd := "/x" } "a/../b"
    (by decide)).2.2.2.2.1

theorem getNode_root (v : VirtualFileSystem) : v.getNode "/" = some v.root := by
  rw [VirtualFileSystem.getNode]
  have h : v.normalizePosix "/" = "/" := normalizePosix_mkPath v [] rfl
  simp [h]

/-- C9: in every state reachable from construction by engine operations,
the root is a directory, the cwd is an absolute path string, and the cwd
resolves to an existing directory node (it is `/` right after loading, and
`cd` assigns only paths it has just resolved to a directory). -/
theorem C9_cwd_invariant :
    ∀ v : VirtualFileSystem, ReachableVFS v →
      (∃ nr chr, v.root = VEntry.dir nr chr) ∧
      startsWithSlash v.cwd = true ∧
      (∃ n ch, v.getNode v.cwd = some (VEntry.dir n ch)) := by
  intro v hv
  induction hv with
  | load rows v0 hload =>
    rw [loadVFS] at hload
    obtain ⟨⟨ch2, hch2⟩, hcwd⟩ := loadRows_shape rows _ "" [] v0 rfl hload
    rw [show ({ root := VEntry.dir "" [], cwd := "/" } : VirtualFileSystem).cwd = "/"
      from rfl] at hcwd
    refine ⟨⟨"", ch2, hch2⟩, by rw [hcwd]; rfl, ?_⟩
    rw [hcwd, getNode_root v0, hch2]
    exact ⟨"", ch2, rfl⟩
  | stepCd v0 p hr ih =>
    obtain ⟨⟨nr, chr, hroot⟩, hcwds, ⟨n, ch, hget⟩⟩ := ih
    by_cases hp : p = ""
    · subst hp
      rw [cd_empty]
      refine ⟨⟨nr, chr, hroot⟩, rfl, ?_⟩
      rw [show ({ v0 with cwd := "/" } : VirtualFileSystem).cwd = "/" from rfl]
      rw [getNode_root { v0 with cwd := "/" }]
      exact ⟨nr, chr, by rw [show ({ v0 with cwd := "/" } :
        VirtualFileSystem).root = v0.root from rfl, hroot]⟩
    · cases hg2 : v0.getNode (v0.normalizePosix p) with
      | none =>
        rw [cd_none v0 p hp hg2]
        exact ⟨⟨nr, chr, hroot⟩, hcwds, ⟨n, ch, hget⟩⟩
      | some e =>
        cases e with
        | file nf cf =>
          rw [cd_file v0 p nf cf hp hg2]
          exact ⟨⟨nr, chr, hroot⟩, hcwds, ⟨n, ch, hget⟩⟩
        | dir nd chd =>
          rw [cd_dir v0 p nd chd hp hg2]
          have habs : startsWithSlash (v0.normalizePosix p) = true :=
            normalizePosix_starts v0 p hp
          refine ⟨⟨nr, chr, hroot⟩, habs, ?_⟩
          refine ⟨nd, chd, ?_⟩
          have hirr := getNode_abs_irrelevant v0.root (v0.normalizePosix p) v0.cwd
            (v0.normalizePosix p) (replaceBk_head_slash _ habs)
          rw [show ({ v0 with cwd := v0.normalizePosix p } :
            VirtualFileSystem).cwd = v0.normalizePosix p from rfl]
          rw [show ({ v0 with cwd := v0.normalizePosix p } : VirtualFileSystem) =
            ⟨v0.root, v0.normalizePosix p⟩ from rfl]
          rw [hirr]
          exact hg2
  | stepLs v0 p hr ih => exact ih
  | stepTree v0 p md hr ih => exact ih
  | stepRead v0 p dec hr ih => exact ih

/-- C9 (witness): the invariant at the state loaded from the empty
manifest. -/
theorem C9_witness :
    (∃ nr chr, ({ root := VEntry.dir "" [], cwd := "/" } : VirtualFileSystem).root =
        VEntry.dir nr chr) ∧
    startsWithSlash ({ root := VEntry.dir "" [], cwd := "/" } :
        VirtualFileSystem).cwd = true ∧
    (∃ n ch, VirtualFileSystem.getNode { root := VEntry.dir "" [], cwd := "/" }
        ({ root := VEntry.dir "" [], cwd := "/" } : VirtualFileSystem).cwd =
      some (VEntry.dir n ch)) :=
  C9_cwd_invariant { root := VEntry.dir "" [], cwd := "/" }
    (ReachableVFS.load [] _ rfl)

theorem normalizePosix_cwd_eq (v w : VirtualFileSystem) (h : v.cwd = w.cwd)
    (x : String) : v.normalizePosix x = w.normalizePosix x := by
  rw [VirtualFileSystem.normalizePosix, VirtualFileSystem.normalizePosix, h]

theorem ensureDir_cases (v : VirtualFileSystem) (q : String)
    (v1 : VirtualFileSystem) (h : v.ensureDir q = .ok v1) :
    (v.normalizePosix q = "/" ∧ v1 = v) ∨
    (v.normalizePosix q ≠ "/" ∧
      ∃ r, ensureSegs v.root (partsOf (v.normalizePosix q)) = .ok r ∧
        v1 = { v with root := r }) := by
  rw [VirtualFileSystem.ensureDir] at h
  by_cases ha : v.normalizePosix q = "/"
  · rw [if_pos ha] at h
    cases h
    exact Or.inl ⟨ha, rfl⟩
  · rw [if_neg ha] at h
    cases he : ensureSegs v.root (partsOf (v.normalizePosix q)) with
    | error m => rw [he] at h; cases h
    | ok r =>
      rw [he] at h
      exact Or.inr ⟨ha, r, rfl, by cases h; rfl⟩

theorem ensureAttach_err (v : VirtualFileSystem) (path content msg m : String)
    (he : v.ensureDir (pdirname path) = .error m) :
    ensureAttach v path content msg = .error m := by
  rw [ensureAttach, he]

theorem ensureAttach_ok_unfold (v : VirtualFileSystem) (path content msg : String)
    (v1 : VirtualFileSystem) (he : v.ensureDir (pdirname path) = .ok v1) :
    ensureAttach v path content msg =
      match attachAt v1.root (partsOf (v1.normalizePosix (pdirname path)))
          (.file (pbasename path) content) msg with
      | .ok r => .ok { v1 with root := r }
      | .error m => .error m := by
  rw [ensureAttach, he]

/-- With a directory at the root (always true for the engine), the shared
ensure-then-attach tail gives the same result whatever failure message the
branch would use: after a successful `_ensure_dir` the attach cannot fail. -/
theorem ensureAttach_msg_irrelevant (v : VirtualFileSystem) (n : String)
    (ch : List VEntry) (hroot : v.root = VEntry.dir n ch)
    (path content m1 m2 : String) :
    ensureAttach v path content m1 = ensureAttach v path content m2 := by
  cases he : v.ensureDir (pdirname path) with
  | error m =>
    rw [ensureAttach_err v path content m1 m he, ensureAttach_err v path content m2 m he]
  | ok v1 =>
    rw [ensureAttach_ok_unfold v path content m1 v1 he,
      ensureAttach_ok_unfold v path content m2 v1 he]
    rcases ensureDir_cases v (pdirname path) v1 he with ⟨ha, hv1⟩ | ⟨ha, r, hseg, hv1⟩
    · subst hv1
      rw [ha]
      rw [show partsOf "/" = [] from rfl]
      rw [hroot]
      rw [attachAt_nil_dir, attachAt_nil_dir]
    · subst hv1
      rw [normalizePosix_cwd_eq { v with root := r } v rfl (pdirname path)]
      rw [show ({ v with root := r } : VirtualFileSystem).root = r from rfl]
      rw [hroot] at hseg
      obtain ⟨r2, hr2⟩ := ensureSegs_attachAt_ok _ n ch r hseg
        (.file (pbasename path) content)
      rw [hr2 m1, hr2 m2]

/-- C7: a data row whose type token is neither `dir` nor `file` is loaded
exactly like a `file` row — parent chain ensured, a File leaf with the
row's content attached under the basename, no error for the unrecognized
type; concretely, the row `("/a", "weird", "hi")` produces the same tree as
a file row would. -/
theorem C7_unknown_type_file_fallback :
    ∀ (v : VirtualFileSystem) (n : String) (ch : List VEntry)
      (pcell tcell ccell : String), v.root = VEntry.dir n ch →
      pyLower (pyStrip tcell) ≠ "dir" → pyLower (pyStrip tcell) ≠ "file" →
      loadRow v [pcell, tcell, ccell] = loadRow v [pcell, "file", ccell] ∧
      loadRow { root := VEntry.dir "" [], cwd := "/" } ["/a", "weird", "hi"] =
        .ok { root := VEntry.dir "" [VEntry.file "a" "hi"], cwd := "/" } := by
  intro v n ch pcell tcell ccell hroot h1 h2
  refine ⟨?_, rfl⟩
  rw [loadRow, loadRow]
  have hrb : ¬(([pcell, "file", ccell].all fun cell => pyStrip cell = "") = true) := by
    have hfile : (decide (pyStrip "file" = "")) = false := by decide
    simp [List.all_cons, hfile]
  simp only [List.get?_cons_zero, List.get?_cons_succ, Option.getD_some]
  by_cases hlblank : ([pcell, tcell, ccell].all fun cell => pyStrip cell = "") = true
  · rw [if_pos hlblank, if_neg hrb]
    have hpc : pyStrip pcell = "" := by
      have := (List.all_eq_true.mp hlblank) pcell (by simp)
      simpa using this
    rw [if_pos hpc]
  · rw [if_neg hlblank, if_neg hrb]
    by_cases hpath : pyStrip pcell = ""
    · rw [if_pos hpath, if_pos hpath]
    · rw [if_neg hpath, if_neg hpath]
      have htypR : pyLower (pyStrip ("file" : String)) = "file" := rfl
      rw [if_neg h1, if_neg h2, htypR]
      rw [if_neg (show ("file" : String) ≠ "dir" by decide), if_pos rfl]
      exact ensureAttach_msg_irrelevant v n ch hroot _ _ _ _

/-- C7 (witness): the fallback theorem applied to the concrete type token
`weird`. -/
theorem C7_witness :
    loadRow { root := VEntry.dir "" [], cwd := "/" } ["/a", "weird", "hi"] =
      loadRow { root := VEntry.dir "" [], cwd := "/" } ["/a", "file", "hi"] :=
  (C7_unknown_type_file_fallback { root := VEntry.dir "" [], cwd := "/" } "" []
    "/a" "weird" "hi" rfl (by decide) (by decide)).1

theorem mkPath_cons_ne_root (s : String) (rest : List String)
    (hs : cleanSeg s = true) : mkPath (s :: rest) ≠ "/" := by
  intro h
  have hd := congrArg String.data h
  rw [mkPath_data] at hd
  have hjoin : (joinStr "/" (s :: rest)).data = [] := by
    injection hd with h1 h2
  obtain ⟨t, ht⟩ := joinStr_data_head s rest
  rw [ht] at hjoin
  have hne := data_ne_nil_of_ne_empty s (cleanSeg_props s hs).1
  cases hsd : s.data with
  | nil => exact hne hsd
  | cons c cs =>
    rw [hsd] at hjoin
    cases hjoin

theorem getNode_mkPath_cons (v : VirtualFileSystem) (s : String)
    (rest : List String) (h : cleanSegs (s :: rest) = true) :
    v.getNode (mkPath (s :: rest)) = descend v.root (s :: rest) := by
  rw [VirtualFileSystem.getNode]
  simp only [normalizePosix_mkPath v (s :: rest) h]
  rw [if_neg (mkPath_cons_ne_root s rest (cleanSegs_cons s rest h).1)]
  rw [partsOf_mkPath (s :: rest) h]

theorem ensureDir_mkPath_cons (v : VirtualFileSystem) (s : String)
    (rest : List String) (h : cleanSegs (s :: rest) = true) :
    v.ensureDir (mkPath (s :: rest)) =
      match ensureSegs v.root (s :: rest) with
      | .ok r => .ok { v with root := r }
      | .error m => .error m := by
  rw [VirtualFileSystem.ensureDir]
  simp only [normalizePosix_mkPath v (s :: rest) h]
  rw [if_neg (mkPath_cons_ne_root s rest (cleanSegs_cons s rest h).1)]
  rw [partsOf_mkPath (s :: rest) h]

/-- A manifest row whose path is a clean absolute path unfolds to the three
type branches of the loader. -/
theorem loadRow_clean (v : VirtualFileSystem) (segs : List String)
    (rawTyp content : String) (h : cleanSegs segs = true) :
    loadRow v [mkPath segs, rawTyp, content] =
      (if pyLower (pyStrip rawTyp) = "dir" then v.ensureDir (mkPath segs)
       else if pyLower (pyStrip rawTyp) = "file" then
         ensureAttach v (mkPath segs) (pyStrip content)
           ("Parent " ++ pdirname (mkPath segs) ++ " is not a directory for file " ++
             mkPath segs)
       else
         ensureAttach v (mkPath segs) (pyStrip content)
           ("AttributeError: add_child on non-directory for " ++ mkPath segs)) := by
  rw [loadRow]
  have hstrip : pyStrip (mkPath segs) = mkPath segs := pyStrip_mkPath segs h
  have hnonb : ¬(([mkPath segs, rawTyp, content].all
      fun cell => pyStrip cell = "") = true) := by
    intro hall
    have h0 := (List.all_eq_true.mp hall) (mkPath segs) (by simp)
    rw [decide_eq_true_eq, hstrip] at h0
    exact mkPath_ne_empty segs h0
  rw [if_neg hnonb]
  simp only [List.get?_cons_zero, List.get?_cons_succ, Option.getD_some]
  rw [hstrip]
  rw [if_neg (mkPath_ne_empty segs)]
  rw [replaceBk_mkPath segs h]
  rw [if_pos (startsWithSlash_mkPath segs)]

theorem loadRows_append_ok (a b : List (List String)) (v v2 : VirtualFileSystem)
    (h : loadRows v a = .ok v2) : loadRows v (a ++ b) = loadRows v2 b := by
  rw [loadRows_append, h]

theorem loadRows_append_err (a b : List (List String)) (v : VirtualFileSystem)
    (m : String) (h : loadRows v a = .error m) : loadRows v (a ++ b) = .error m := by
  rw [loadRows_append, h]

theorem loadRows_cons_err (v : VirtualFileSystem) (r : List String)
    (rest : List (List String)) (m : String) (h : loadRow v r = .error m) :
    loadRows v (r :: rest) = .error m := by
  rw [loadRows, h]

theorem loadRows_cons_ok (v v2 : VirtualFileSystem) (r : List String)
    (rest : List (List String)) (h : loadRow v r = .ok v2) :
    loadRows v (r :: rest) = loadRows v2 rest := by
  rw [loadRows, h]

/-- C3: in any manifest, a row whose declared parent path already resolves
to a File makes the whole load raise the fatal path-conflict error,
whatever the row's type token and whatever rows follow — no engine state is
produced. -/
theorem C3_parent_file_conflict_aborts :
    ∀ (pre post : List (List String)) (rawTyp content : String)
      (initSegs : List String) (l : String) (t : VirtualFileSystem) (nm ct : String),
      cleanSegs (initSegs ++ [l]) = true →
      loadRows { root := VEntry.dir "" [], cwd := "/" } pre = .ok t →
      t.getNode (pdirname (mkPath (initSegs ++ [l]))) = some (.file nm ct) →
      ∃ m, loadVFS (pre ++ [mkPath (initSegs ++ [l]), rawTyp, content] :: post) =
        .error m := by
  intro pre post rawTyp content initSegs l t nm ct hclean hpre hparent
  obtain ⟨⟨chT, hchT⟩, _⟩ := loadRows_shape pre _ "" [] t rfl hpre
  rw [pdirname_mkPath initSegs l hclean] at hparent
  have hcleanInit : cleanSegs initSegs = true := by
    rw [cleanSegs, List.all_eq_true]
    intro s hs
    exact (List.all_eq_true.mp hclean) s (by simp [hs])
  have hrow : ∃ m, loadRow t [mkPath (initSegs ++ [l]), rawTyp, content] = .error m := by
    cases initSegs with
    | nil =>
      rw [show mkPath ([] : List String) = "/" from rfl, getNode_root t, hchT] at hparent
      cases hparent
    | cons s0 rest0 =>
      rw [getNode_mkPath_cons t s0 rest0 hcleanInit] at hparent
      have herr := descend_file_ensureSegs_error (s0 :: rest0) t.root nm ct hparent
        (by simp)
      rw [loadRow_clean t ((s0 :: rest0) ++ [l]) rawTyp content hclean]
      by_cases htyp : pyLower (pyStrip rawTyp) = "dir"
      · rw [if_pos htyp]
        rw [show (s0 :: rest0) ++ [l] = s0 :: (rest0 ++ [l]) from rfl]
        rw [ensureDir_mkPath_cons t s0 (rest0 ++ [l])
          (by rw [show s0 :: (rest0 ++ [l]) = (s0 :: rest0) ++ [l] from rfl]; exact hclean)]
        obtain ⟨m2, hm2⟩ := herr [l]
        rw [show s0 :: (rest0 ++ [l]) = (s0 :: rest0) ++ [l] from rfl, hm2]
        exact ⟨m2, rfl⟩
      · rw [if_neg htyp]
        obtain ⟨m2, hm2⟩ := herr []
        rw [List.append_nil] at hm2
        have hEnsure : t.ensureDir (pdirname (mkPath ((s0 :: rest0) ++ [l]))) =
            .error m2 := by
          rw [pdirname_mkPath (s0 :: rest0) l hclean]
          rw [ensureDir_mkPath_cons t s0 rest0 hcleanInit]
          rw [hm2]
        by_cases htyp2 : pyLower (pyStrip rawTyp) = "file"
        · rw [if_pos htyp2]
          exact ⟨m2, ensureAttach_err t _ _ _ m2 hEnsure⟩
        · rw [if_neg htyp2]
          exact ⟨m2, ensureAttach_err t _ _ _ m2 hEnsure⟩
  obtain ⟨m, hm⟩ := hrow
  refine ⟨m, ?_⟩
  rw [loadVFS, loadRows_append_ok pre _ _ t hpre]
  exact loadRows_cons_err t _ post m hm

/-- C3 (witness): loading `("/f", file)` and then `("/f/g", file)` aborts
with the path-conflict error. -/
theorem C3_witness :
    ∃ m, loadVFS [["/f", "file", "x"], [mkPath (["f"] ++ ["g"]), "file", "y"]] =
      .error m :=
  C3_parent_file_conflict_aborts [["/f", "file", "x"]] [] "file" "y" ["f"] "g"
    { root := VEntry.dir "" [VEntry.file "f" "x"], cwd := "/" } "f" "x"
    (by decide) rfl rfl

/-- C10 (counterexample): two rows declaring the same full path do raise
when the later row has type `dir` and the path already exists as a File —
the claim's "the loader raises no error" is false for that order. -/
theorem C10_counterexample :
    loadVFS [["/a", "file", "x"], ["/a", "dir", ""]] =
      .error "Path conflict: a exists as file when directory expected" := rfl

/-- C10 (amended): attaching a child under an already-used name silently
replaces the previous entry (and other keys are untouched), attaching under
any path that resolves to a directory succeeds even if the name is taken,
and on the concrete duplicate manifest the last file row wins: the old
directory and its whole subtree become unreachable.  Only a `dir` row over
an existing File path is an error (the C3 conflict). -/
theorem C10_last_row_wins :
    (∀ (ch : List VEntry) (e : VEntry), getChild (addChild ch e) e.name = some e) ∧
    (∀ (ch : List VEntry) (e : VEntry) (k : String), k ≠ e.name →
      getChild (addChild ch e) k = getChild ch k) ∧
    (∀ (t : VEntry) (segs : List String) (n2 : String) (ch2 : List VEntry)
      (c : VEntry) (m : String), descend t segs = some (.dir n2 ch2) →
      ∃ r, attachAt t segs c m = .ok r) ∧
    (loadVFS [["/a", "dir", ""], ["/a/b.txt", "file", "h"], ["/a", "file", "x"]] =
        .ok { root := .dir "" [.file "a" "x"], cwd := "/" } ∧
      VirtualFileSystem.getNode { root := .dir "" [.file "a" "x"], cwd := "/" } "/a" =
        some (.file "a" "x") ∧
      VirtualFileSystem.getNode { root := .dir "" [.file "a" "x"], cwd := "/" }
        "/a/b.txt" = none) :=
  ⟨getChild_addChild_self,
   getChild_addChild_other,
   fun t segs n2 ch2 c m h => descend_dir_attachAt_ok segs t n2 ch2 h c m,
   rfl, rfl, rfl⟩

/-- C10 (witness): replacement lookup applied at a fresh name. -/
theorem C10_witness :
    getChild (addChild [] (VEntry.file "n" "c")) "z" = getChild [] "z" :=
  C10_last_row_wins.2.1 [] (VEntry.file "n" "c") "z" (by decide)

theorem sortTree_name (e : VEntry) : (sortTree e).name = e.name := by
  cases e <;> rfl

theorem sortForest_names (l : List VEntry) :
    (sortForest l).map VEntry.name = l.map VEntry.name := by
  induction l with
  | nil => rfl
  | cons e es ih =>
    rw [sortForest, List.map_cons, List.map_cons, sortTree_name e, ih]

theorem mergeSort_entryLe_sorted (l : List VEntry) :
    List.Sorted (fun a b => VEntry.name a ≤ VEntry.name b) (l.mergeSort entryLe) := by
  have h := @List.sorted_mergeSort VEntry entryLe
    (fun a b c h1 h2 => by
      rw [entryLe] at h1 h2 ⊢
      exact decide_eq_true (le_trans (of_decide_eq_true h1) (of_decide_eq_true h2)))
    (fun a b => by
      rw [entryLe, entryLe]
      exact Bool.or_eq_true _ _ |>.mpr
        ((le_total a.name b.name).imp decide_eq_true decide_eq_true))
    l
  refine h.imp (fun h2 => ?_)
  rw [entryLe] at h2
  exact of_decide_eq_true h2

/-- C6: `tree` produces a pre-order listing: a missing start path is an
error; a resolved start is printed with the sorted-children traversal
(`linesOf` after `sortTree`), labeled `/` exactly when the start node is
the root object; each level adds two spaces of indent; a directory at
`depth ≥ max_depth` prints its line and prunes its children; children are
visited sorted by name; and on the two-row scenario manifest `tree("/")`
is exactly the three lines `/`, `  a`, `    b.txt`. -/
theorem C6_tree_spec :
    (loadVFS [["/a", "dir", ""], ["/a/b.txt", "file", "hello"]] =
        .ok { root := .dir "" [.dir "a" [.file "b.txt" "hello"]], cwd := "/" } ∧
      VirtualFileSystem.tree
          { root := .dir "" [.dir "a" [.file "b.txt" "hello"]], cwd := "/" }
          (some "/") none =
        .ok ("/" ++ "\n" ++ "  a" ++ "\n" ++ "    b.txt")) ∧
    (∀ (v : VirtualFileSystem) (p : Option String) (md : Option Nat),
      v.getNode (targetOf v p) = none → ∃ m, v.tree p md = .error m) ∧
    (∀ (v : VirtualFileSystem) (p : Option String) (md : Option Nat) (node : VEntry),
      v.getNode (targetOf v p) = some node →
      v.tree p md = .ok (joinStr "\n" (linesOf (sortTree node)
        (partsOf (v.normalizePosix (targetOf v p))).isEmpty "" 0 md))) ∧
    (∀ (n : String) (ch : List VEntry) (isRoot : Bool) (pre : String) (d m : Nat),
      d ≥ m → linesOf (.dir n ch) isRoot pre d (some m) =
        [pre ++ (if isRoot then "/" else n)]) ∧
    (∀ (n : String) (ch : List VEntry) (isRoot : Bool) (pre : String) (d : Nat)
      (md : Option Nat), (∀ m, md = some m → d < m) →
      linesOf (.dir n ch) isRoot pre d md =
        (pre ++ (if isRoot then "/" else n)) ::
          linesForest ch (pre ++ "  ") (d + 1) md) ∧
    (∀ (e : VEntry) (es : List VEntry) (pre : String) (d : Nat) (md : Option Nat),
      linesForest (e :: es) pre d md =
        linesOf e false pre d md ++ linesForest es pre d md) ∧
    (∀ (n : String) (ch : List VEntry), ∃ ch2,
      sortTree (.dir n ch) = .dir n ch2 ∧
      List.Sorted (fun a b => VEntry.name a ≤ VEntry.name b) ch2 ∧
      (ch2.map VEntry.name).Perm (ch.map VEntry.name)) := by
  refine ⟨⟨rfl, ?_⟩, ?_, ?_, ?_, ?_, ?_, ?_⟩
  · rw [VirtualFileSystem.tree]
    rw [show targetOf { root := .dir "" [.dir "a" [.file "b.txt" "hello"]], cwd := "/" }
      (some "/") = "/" from rfl]
    rw [getNode_root]
    rw [show partsOf (VirtualFileSystem.normalizePosix
      { root := .dir "" [.dir "a" [.file "b.txt" "hello"]], cwd := "/" } "/") = []
      from rfl]
    simp only [linesOf, linesForest, sortTree, sortForest, joinStr]
    simp [List.mergeSort]
    rfl
  · intro v p md hg
    refine ⟨"No such path: " ++ targetOf v p, ?_⟩
    rw [VirtualFileSystem.tree]
    simp only [hg]
  · intro v p md node hg
    rw [VirtualFileSystem.tree]
    simp only [hg]
  · intro n ch isRoot pre d m hdm
    rw [linesOf]
    rw [if_pos hdm]
  · intro n ch isRoot pre d md hmd
    cases md with
    | none => rw [linesOf]
    | some m =>
      rw [linesOf]
      rw [if_neg (by have := hmd m rfl; omega)]
  · intro e es pre d md
    rw [linesForest]
  · intro n ch
    refine ⟨(sortForest ch).mergeSort entryLe, rfl, mergeSort_entryLe_sorted _, ?_⟩
    have hperm := List.mergeSort_perm (sortForest ch) entryLe
    have h2 := hperm.map VEntry.name
    rw [sortForest_names] at h2
    exact h2

/-- C6 (witness): `tree` on a missing start path fails. -/
theorem C6_witness :
    ∃ m, VirtualFileSystem.tree { root := VEntry.dir "" [], cwd := "/" }
      (some "/zz") none = .error m :=
  C6_tree_spec.2.1 { root := VEntry.dir "" [], cwd := "/" } (some "/zz") none rfl
